import Mathlib

/-!
Verification of the Groot interpreter side panel
(`bt_editor/sidepanel_interpreter.cpp`, `bt_editor/interpreter_utils.cpp`).

The C++ code is embedded shallowly: pure index computations become Lean
functions on `Int` (the C++ `int` indices stay far from overflow), the
Qt/BehaviorTree.CPP state touched by the handlers becomes explicit record
state, and rosbridge results become explicit JSON-like values.
-/

/-! ## Model definitions (translated from the source) -/

/-- `BT::NodeStatus` from BehaviorTree.CPP. -/
inductive NodeStatus
  | IDLE
  | RUNNING
  | SUCCESS
  | FAILURE
deriving DecidableEq, Fintype, Repr

/-- `NodeType` (shared shape of the editor's and BehaviorTree.CPP's enums). -/
inductive NodeType
  | UNDEFINED
  | ACTION
  | CONDITION
  | CONTROL
  | DECORATOR
  | SUBTREE
deriving DecidableEq, Fintype, Repr

/-- The `std::vector<std::pair<int, NodeStatus>>` the side panel passes around. -/
abbrev StatusVec := List (Int × NodeStatus)

/-- The `_abstract_tree` as `translateNodeIndex` reads it: at abstract (GUI)
position `j`, `some s` means the node is a collapsed subtree root whose
expansion inserts `s` hidden nodes (`getSubtreeNodesRecursively(...).size() - 1`,
the root itself not counted); `none` means any other node. -/
abbrev AbsTree := Nat → Option Nat

/-- Number of hidden nodes contributed by abstract position `j` (0 for a
non-subtree node). -/
def subSize (tree : AbsTree) (j : Nat) : Int :=
  ((tree j).getD 0 : Nat)

/-- The `check_range` lambda of `translateNodeIndex`.  It captures the
node-status vector **by value**, so throughout the loop it tests the
untranslated input entries: true iff some entry index lies in `(mn, mn+sz]`. -/
def check_range (ns : StatusVec) (mn sz : Int) : Bool :=
  ns.any (fun it => decide (mn < it.1) && decide (mn + sz ≥ it.1))

/-- The `update_range` lambda of `translateNodeIndex` (captures the vector by
reference): each entry runs the two sequential conditionals of the C++ body. -/
def update_range (tree_index : Bool) (mn sz : Int) (ns : StatusVec) : StatusVec :=
  ns.map (fun it0 =>
    let it1 := if tree_index = true ∧ mn + sz < it0.1 then (it0.1 - sz, it0.2) else it0
    if tree_index = false ∧ mn < it1.1 then (it1.1 + sz, it1.2) else it1)

/-- The `for (int i=0; i<last_change_index; i++)` loop of `translateNodeIndex`.
State: loop counter `i`, the `offset` local, the mutable `last_change_index`
(`lci`) and the vector `ns`; `ns0` is the by-value copy seen by `check_range`.
`fuel` makes the recursion structural: `i` grows by one each pass and `lci`
never increases, so starting `fuel` at `lci.toNat` the loop guard `i < lci`
is already false whenever fuel runs out, and the early return is exact. -/
def translateLoop (tree : AbsTree) (tree_index : Bool) (ns0 : StatusVec) :
    Nat → Nat → Int → Int → StatusVec → StatusVec
  | 0, _, _, _, ns => ns
  | fuel + 1, i, offset, lci, ns =>
    if (i : Int) < lci then
      match tree i with
      | none => translateLoop tree tree_index ns0 fuel (i + 1) offset lci ns
      | some s =>
        if !tree_index || !check_range ns0 (i : Int) (s : Nat) then
          let ns1 := update_range tree_index ((i : Int) + offset) (s : Nat) ns
          if tree_index then
            translateLoop tree tree_index ns0 fuel (i + 1) offset (lci - (s : Nat)) ns1
          else
            translateLoop tree tree_index ns0 fuel (i + 1) (offset + (s : Nat)) lci ns1
        else
          translateLoop tree tree_index ns0 fuel (i + 1) offset lci ns
    else ns

/-- `std::max_element(node_status.begin(), node_status.end())->first`: pairs
compare lexicographically, so the selected pair's `first` is the maximum of
all `first` components (the code only evaluates this on a non-empty vector). -/
def maxFirst : StatusVec → Int
  | [] => 0
  | p :: rest => rest.foldl (fun m q => max m q.1) p.1

/-- `SidepanelInterpreter::translateNodeIndex`.  With `tree_index = true` it
translates execution-tree (`_tree`) indices into abstract-tree (GUI) indices,
with `tree_index = false` the other way around. -/
def translateNodeIndex (tree : AbsTree) (ns : StatusVec) (tree_index : Bool) : StatusVec :=
  match ns with
  | [] => []
  | _ => translateLoop tree tree_index ns (maxFirst ns).toNat 0 0 (maxFirst ns) ns

/-- Sum of the hidden-node counts of the collapsed subtrees at abstract
positions strictly below `v` ("all collapsed subtrees that precede the index"). -/
def sizesBelow (tree : AbsTree) (v : Int) : Int :=
  ((List.range v.toNat).map (fun j => subSize tree j)).sum

/-- Spec-side map for `tree_index = false`, from the claim's words: a GUI index
grows by the size of every collapsed subtree whose root lies strictly before it,
the adjustments accumulating. -/
def specToExec (tree : AbsTree) (v : Int) : Int :=
  v + sizesBelow tree v

/-- Execution-tree index of the visible node at abstract position `u`: its GUI
position plus every hidden node before it. -/
def execPos (tree : AbsTree) (u : Nat) : Int :=
  specToExec tree (u : Int)

/-- Spec-side map for `tree_index = true`, from the claim's words: an
execution-tree index shrinks by the size of every collapsed subtree that lies
strictly before it (i.e. whose whole collapsed block, root at `execPos j` plus
`subSize j` hidden nodes, ends strictly before `v`), accumulating. -/
def specToGui (tree : AbsTree) (v : Int) : Int :=
  v - ((List.range v.toNat).map (fun j =>
        if execPos tree j + subSize tree j < v then subSize tree j else 0)).sum

/-- Sum of hidden-node counts over the abstract positions in `[i, b)`. -/
def sumSizes (tree : AbsTree) (i b : Nat) : Int :=
  ((List.range' i (b - i)).map (fun j => subSize tree j)).sum

/-- Adjustment that the `tree_index = false` loop adds to one entry of value
`v`, starting from loop state `(i, offset, lci)`: the loop acts entrywise in
this direction, and this function replays the per-entry dynamics. -/
def addAmt (tree : AbsTree) : Nat → Nat → Int → Int → Int → Int
  | 0, _, _, _, _ => 0
  | fuel + 1, i, offset, lci, v =>
    if (i : Int) < lci then
      match tree i with
      | none => addAmt tree fuel (i + 1) offset lci v
      | some s =>
        if (i : Int) + offset < v then
          (s : Int) + addAmt tree fuel (i + 1) (offset + (s : Int)) lci (v + (s : Int))
        else
          addAmt tree fuel (i + 1) (offset + (s : Int)) lci v
    else 0

/-- Value of an entry whose abstract (GUI) index is `u` once the
`tree_index = true` loop has folded the collapsed subtrees at positions `< i`:
the GUI index plus the hidden nodes between positions `min i u` and `u`. -/
def curVal (tree : AbsTree) (i u : Nat) : Int :=
  (u : Int) + sumSizes tree (min i u) u

/-- Nat version of `maxFirst`, for lists of abstract-tree indices. -/
def maxFirstNat : List (Nat × NodeStatus) → Nat
  | [] => 0
  | p :: rest => rest.foldl (fun m q => max m q.1) p.1

/-- Abstract tree with one collapsed subtree at position 0 hiding two nodes. -/
def treeOneSub : AbsTree := fun j => if j = 0 then some 2 else none

/-- Abstract tree with collapsed subtrees at positions 0 and 2, each hiding
one node. -/
def treeTwoSubs : AbsTree := fun j => if j = 0 ∨ j = 2 then some 1 else none

/-- One `_tree` node as `tickRoot` sees it: the status recorded in
`prev_node_status` before the tick, the status after the tick, and the
BehaviorTree.CPP node type. -/
structure TickNode where
  prevStatus : NodeStatus
  newStatus : NodeStatus
  ntype : NodeType
deriving DecidableEq, Repr

/-- The statuses the `i >= 1` loop of `tickRoot` pushes for one node, in push
order: on a change, the previous status first when the new one is `IDLE`, then
the new status; on an unchanged `RUNNING` non-condition node, a forced update
plus an `IDLE` entry when a condition evaluation is pending. -/
def tickBlockStatuses (conditionRunning : Bool) (n : TickNode) : List NodeStatus :=
  if n.newStatus ≠ n.prevStatus then
    (if n.newStatus = NodeStatus.IDLE then [n.prevStatus] else []) ++ [n.newStatus]
  else if n.newStatus = NodeStatus.RUNNING ∧ n.ntype ≠ NodeType.CONDITION then
    n.newStatus :: (if conditionRunning then [NodeStatus.IDLE] else [])
  else []

/-- The entries the `i >= 1` loop of `tickRoot` pushes for the node at
execution index `i`. -/
def tickBlock (conditionRunning : Bool) (i : Nat) (n : TickNode) : StatusVec :=
  (tickBlockStatuses conditionRunning n).map (fun st => ((i : Int), st))

/-- The `for` loop over `_tree.nodes` in `tickRoot`, starting at index `i`. -/
def tickChangesAux (conditionRunning : Bool) : Nat → List TickNode → StatusVec
  | _, [] => []
  | i, n :: rest => tickBlock conditionRunning i n
      ++ tickChangesAux conditionRunning (i + 1) rest

/-- The `node_status` vector `tickRoot` hands to `expandAndChangeNodeStyle`:
the root entry (index 0) when `_root_status` changed, then the per-node
entries starting at index 1.  `conditionRunning` records whether the tick
threw `ConditionEvaluation`. -/
def tickRootChanges (rootPrev rootNew : NodeStatus) (nodes : List TickNode)
    (conditionRunning : Bool) : StatusVec :=
  (if rootNew ≠ rootPrev then [((0 : Int), rootNew)] else [])
    ++ tickChangesAux conditionRunning 1 nodes

/-- Condition under which `tickRoot` emits at least one entry for node `i`:
its status changed, or it is an unchanged `RUNNING` non-condition node. -/
def tickEntryCond (n : TickNode) : Prop :=
  n.newStatus ≠ n.prevStatus
  ∨ (n.prevStatus = NodeStatus.RUNNING ∧ n.newStatus = NodeStatus.RUNNING
     ∧ n.ntype ≠ NodeType.CONDITION)

/-- JSON values as rapidjson documents hold them (numbers collapsed to `Int`;
the claims under study only inspect the boolean member `success`). -/
inductive JsonValue
  | jnull
  | jbool (b : Bool)
  | jnumber (n : Int)
  | jstring (s : String)
  | jarray (elems : List JsonValue)
  | jobject (members : List (String × JsonValue))

/-- rapidjson member lookup on a document: first member with the given name
(`HasMember` / `operator[]`). -/
def findMember (members : List (String × JsonValue)) (key : String) : Option JsonValue :=
  match members.find? (fun m => m.1 == key) with
  | some m => some m.2
  | none => none

/-- The shared result test
`result.HasMember("success") && result["success"].IsBool() && result["success"].GetBool()`. -/
def successCheck (result : List (String × JsonValue)) : Bool :=
  match findMember result "success" with
  | some (JsonValue.jbool b) => b
  | _ => false

/-- Tail of `SidepanelInterpreter::executeConditionNode`: the status computed
from the service result (the service call itself is transport). -/
def executeConditionNodeStatus (result : List (String × JsonValue)) : NodeStatus :=
  if successCheck result then NodeStatus.SUCCESS else NodeStatus.FAILURE

/-- Tail of `SidepanelInterpreter::executeActionNode`: the status computed
from the action result. -/
def executeActionNodeStatus (result : List (String × JsonValue)) : NodeStatus :=
  if successCheck result then NodeStatus.SUCCESS else NodeStatus.FAILURE

/-- Tail of `Interpreter::ExecuteActionThread::run`: the string reported
through `actionReportResult`. -/
def executeActionThreadResult (result : List (String × JsonValue)) : String :=
  if successCheck result then "SUCCESS" else "FAILURE"

/-- Which rosbridge call `executeNode` issues. -/
inductive RosbridgeCall
  | serviceCall
  | actionGoal
deriving DecidableEq, Repr

/-- Observable effect of one `SidepanelInterpreter::executeNode` call. -/
structure ExecEffect where
  call : Option RosbridgeCall
  styleChanged : Bool
  statuses : List NodeStatus
deriving DecidableEq, Repr

/-- `_tree.nodes.at(idx)` + `changeTreeNodeStatus`: write the status at the
given position.  (An out-of-range `at` would throw `std::out_of_range`; the
claims under study never reach that branch, so it is modelled as a no-op.) -/
def setTreeStatusAt (statuses : List NodeStatus) (idx : Int) (st : NodeStatus) :
    List NodeStatus :=
  if 0 ≤ idx ∧ idx.toNat < statuses.length then statuses.set idx.toNat st else statuses

/-- `SidepanelInterpreter::executeNode`: dispatch on the abstract node's model
type; `callResult` abstracts the status the rosbridge call returns, and
`statuses` holds the `_tree.nodes` statuses (node `i` of the panel's indexing
at position `i - 1`, the root being skipped). -/
def executeNode (tree : AbsTree) (node_id : Nat) (ntype : NodeType)
    (callResult : NodeStatus) (statuses : List NodeStatus) : ExecEffect :=
  if ntype = NodeType.CONDITION ∨ ntype = NodeType.ACTION then
    let ns : StatusVec := [((node_id : Int), callResult)]
    let ns1 := translateNodeIndex tree ns false
    { call := some (if ntype = NodeType.CONDITION then RosbridgeCall.serviceCall
                    else RosbridgeCall.actionGoal),
      styleChanged := true,
      statuses := ns1.foldl (fun acc it => setTreeStatusAt acc (it.1 - 1) it.2) statuses }
  else
    { call := none, styleChanged := false, statuses := statuses }

/-- The `_timer->start(20)` interval. -/
def timerIntervalMs : Nat := 20

/-- The side-panel flags touched by run-stepping: `_autorun`, `_updated` and
whether `_timer` is running. -/
structure PanelState where
  autorun : Bool
  updated : Bool
  timerActive : Bool
deriving DecidableEq, Fintype, Repr

/-- Events acting on `PanelState`.  `tickThrows` tells whether `tickRoot`
throws out of the `try` block; `updTick` is the value `_updated` holds right
after `tickRoot` returns or throws (`tickRoot` itself clears `_updated` when
the root is not `RUNNING`). -/
inductive PanelEvent
  | timerTimeout (tickThrows updTick : Bool)
  | enableClicked
  | disableClicked
  | runClicked (tickThrows updTick : Bool)
  | treeLoaded
  | statusEdited
deriving DecidableEq, Repr

/-- One handler execution: the new state and how many times `tickRoot` was
invoked.  `timerTimeout` runs `runStep` (Qt only delivers timeouts while the
timer is active); `enable`/`disable` are the auto-execution buttons;
`runClicked` is `on_buttonRunTree_clicked`; `treeLoaded` is `setTree`
(restarts the timer only when `_autorun`); `statusEdited` covers the handlers
that merely set `_updated`. -/
def panelStep : PanelState → PanelEvent → PanelState × Nat
  | s, PanelEvent.timerTimeout thr updTick =>
    if s.timerActive then
      if s.updated ∧ s.autorun then
        if thr then ({ autorun := false, updated := updTick, timerActive := false }, 1)
        else ({ s with updated := false }, 1)
      else (s, 0)
    else (s, 0)
  | _, PanelEvent.enableClicked =>
    ({ autorun := true, updated := true, timerActive := true }, 0)
  | s, PanelEvent.disableClicked =>
    ({ s with autorun := false, timerActive := false }, 0)
  | s, PanelEvent.runClicked _ updTick => ({ s with updated := updTick }, 1)
  | s, PanelEvent.treeLoaded =>
    ({ s with updated := true, timerActive := s.autorun || s.timerActive }, 0)
  | s, PanelEvent.statusEdited => ({ s with updated := true }, 0)

/-- Number of `tickRoot` invocations made by timer timeouts along a trace. -/
def timerTicksTrace : PanelState → List PanelEvent → Nat
  | _, [] => 0
  | s, e :: es =>
    (match e with
     | PanelEvent.timerTimeout _ _ => (panelStep s e).2
     | _ => 0) + timerTicksTrace (panelStep s e).1 es

/-- `_connected` plus the widget states `toggleButtonConnect` drives. -/
structure ConnState where
  connected : Bool
  execSelEnabled : Bool
  execRunEnabled : Bool
  hostEditable : Bool
  portEditable : Bool
deriving DecidableEq, Fintype, Repr

/-- Events on the connection state: the two rosbridge-thread signals, and a
click on Connect (`threadRunning` tells whether a previous connection thread
is still running, which makes the not-connected branch return early — either
way that branch changes no flag). -/
inductive ConnEvent
  | connectionCreated
  | connectionError
  | connectClicked (threadRunning : Bool)
deriving DecidableEq, Fintype, Repr

/-- `SidepanelInterpreter::toggleButtonConnect`. -/
def toggleButtonConnect (s : ConnState) : ConnState :=
  { s with hostEditable := !s.connected, portEditable := !s.connected,
           execSelEnabled := s.connected, execRunEnabled := s.connected }

/-- The three handlers that can touch `_connected`. -/
def connStep : ConnState → ConnEvent → ConnState
  | s, ConnEvent.connectionCreated => toggleButtonConnect { s with connected := true }
  | s, ConnEvent.connectionError => toggleButtonConnect { s with connected := false }
  | s, ConnEvent.connectClicked _ =>
    if s.connected then toggleButtonConnect { s with connected := false } else s

/-- `return_status_` and the node's BehaviorTree.CPP status. -/
structure CondNodeState where
  returnStatus : NodeStatus
  nodeStatus : NodeStatus
deriving DecidableEq, Fintype, Repr

/-- `InterpreterConditionNode::tick`. -/
def conditionNodeTick (s : CondNodeState) : NodeStatus := s.returnStatus

/-- `InterpreterConditionNode::executeTick`: `none` models throwing
`ConditionEvaluation` (no status returned), paired with the state after the
call. -/
def conditionExecuteTick (s : CondNodeState) : Option NodeStatus × CondNodeState :=
  let status := conditionNodeTick s
  if status = NodeStatus.IDLE then
    (none, { s with nodeStatus := NodeStatus.RUNNING })
  else
    (some status, { returnStatus := NodeStatus.IDLE, nodeStatus := status })

/-- `InterpreterConditionNode::set_status`. -/
def conditionSetStatus (st : NodeStatus) : CondNodeState :=
  { returnStatus := st, nodeStatus := st }

/-- Kind of rapidjson value produced by `getInputValue` / consumed by
`setOutputValue` (`SetObject`, `SetBool`, `SetInt`, ...). -/
inductive JsonKind
  | kObject
  | kBool
  | kInt
  | kUint
  | kInt64
  | kUint64
  | kDouble
  | kString
deriving DecidableEq, Repr

/-- C++ scalar type `setOutputValue` writes through `setOutput<T>`. -/
inductive CppScalar
  | cUint8
  | cInt8
  | cInt16
  | cInt32
  | cInt64
  | cUint16
  | cUint32
  | cUint64
  | cFloat
  | cDouble
  | cString
  | cDocument
deriving DecidableEq, Repr

/-- `type.find('/') != std::string::npos`: the type string names a ROS
message (contains a slash). -/
def typeIsRosMsg (ty : String) : Bool := ty.data.contains '/'

/-- The `fmt::format` message of the two error branches. -/
def invalidPortTypeMsg (ty name reg nodeName : String) : String :=
  "Invalid port type: " ++ ty ++ " for " ++ name ++ " at " ++ reg
    ++ "(" ++ nodeName ++ ")"

/-- `Interpreter::getInputValue`: the type-dispatch chain, abstracted over a
successful, well-typed `getInput` read (the claim's hypothesis); the result
is the kind of JSON value produced, or the invalid-port-type error. -/
def getInputValue (ty name reg nodeName : String) : Except String JsonKind :=
  if typeIsRosMsg ty then Except.ok JsonKind.kObject
  else if ty = "bool" then Except.ok JsonKind.kBool
  else if ty = "int8" ∨ ty = "int16" ∨ ty = "int32" then Except.ok JsonKind.kInt
  else if ty = "uint8" ∨ ty = "uint16" ∨ ty = "uint32" then Except.ok JsonKind.kUint
  else if ty = "int64" then Except.ok JsonKind.kInt64
  else if ty = "uint64" then Except.ok JsonKind.kUint64
  else if ty = "float32" ∨ ty = "float64" then Except.ok JsonKind.kDouble
  else if ty = "string" then Except.ok JsonKind.kString
  else Except.error (invalidPortTypeMsg ty name reg nodeName)

/-- `Interpreter::setOutputValue`: the type-dispatch chain; the result is the
kind of JSON value consumed (`GetBool`, `GetInt`, ...) and the C++ type
written, or the invalid-port-type error. -/
def setOutputValue (ty name reg nodeName : String) : Except String (JsonKind × CppScalar) :=
  if typeIsRosMsg ty then Except.ok (JsonKind.kObject, CppScalar.cDocument)
  else if ty = "bool" then Except.ok (JsonKind.kBool, CppScalar.cUint8)
  else if ty = "int8" then Except.ok (JsonKind.kInt, CppScalar.cInt8)
  else if ty = "int16" then Except.ok (JsonKind.kInt, CppScalar.cInt16)
  else if ty = "int32" then Except.ok (JsonKind.kInt, CppScalar.cInt32)
  else if ty = "int64" then Except.ok (JsonKind.kInt64, CppScalar.cInt64)
  else if ty = "uint8" then Except.ok (JsonKind.kUint, CppScalar.cUint8)
  else if ty = "uint16" then Except.ok (JsonKind.kUint, CppScalar.cUint16)
  else if ty = "uint32" then Except.ok (JsonKind.kUint, CppScalar.cUint32)
  else if ty = "uint64" then Except.ok (JsonKind.kUint64, CppScalar.cUint64)
  else if ty = "float32" then Except.ok (JsonKind.kDouble, CppScalar.cFloat)
  else if ty = "float64" then Except.ok (JsonKind.kDouble, CppScalar.cDouble)
  else if ty = "string" then Except.ok (JsonKind.kString, CppScalar.cString)
  else Except.error (invalidPortTypeMsg ty name reg nodeName)

/-- The ROS primitive types the claim enumerates. -/
def rosPrimitiveTypes : List String :=
  ["bool", "int8", "int16", "int32", "int64", "uint8", "uint16", "uint32",
   "uint64", "float32", "float64", "string"]

/-- The full property claimed of the port marshalling for one type string:
both functions throw exactly on an unrecognised non-message type, the thrown
message names the port, the produced and consumed JSON kinds agree, and a
message type yields a JSON document. -/
def C9Prop (ty name reg nodeName : String) : Prop :=
  ((∃ e, getInputValue ty name reg nodeName = Except.error e)
    ↔ (typeIsRosMsg ty = false ∧ ty ∉ rosPrimitiveTypes))
  ∧ ((∃ e, setOutputValue ty name reg nodeName = Except.error e)
    ↔ (typeIsRosMsg ty = false ∧ ty ∉ rosPrimitiveTypes))
  ∧ (∀ e, getInputValue ty name reg nodeName = Except.error e →
      ∃ pre post, e = pre ++ name ++ post)
  ∧ (∀ e, setOutputValue ty name reg nodeName = Except.error e →
      ∃ pre post, e = pre ++ name ++ post)
  ∧ (∀ k, getInputValue ty name reg nodeName = Except.ok k →
      ∃ c, setOutputValue ty name reg nodeName = Except.ok (k, c))
  ∧ (typeIsRosMsg ty = true → getInputValue ty name reg nodeName = Except.ok JsonKind.kObject)

inductive PortDirection
  | INPUT
  | OUTPUT
  | INOUT
deriving DecidableEq, Repr

/-- One entry of the port mapping as both `getRequestFromPorts` versions
iterate it, joined with its `PortModel` (name, direction, type, default) and
the mapped value (`[]` when the mapping has no value for the port). -/
structure PortEntry where
  name : String
  direction : PortDirection
  typeName : String
  defaultValue : List Char
  mappingValue : List Char
deriving DecidableEq, Repr

def braceOpenChar : Char := Char.ofNat 123

def braceCloseChar : Char := Char.ofNat 125

/-- `SidepanelInterpreter::getPortValue`: pick the mapped value unless empty,
strip a leading `$` or surrounding braces, and report whether the value was a
blackboard reference. -/
def getPortValue (default_value mapping_value : List Char) : List Char × Bool :=
  let value := if mapping_value ≠ [] then mapping_value else default_value
  let vr1 := if value.head? = some '$' then (value.drop 1, true) else (value, false)
  if vr1.1.head? = some braceOpenChar ∧ vr1.1.getLast? = some braceCloseChar then
    ((vr1.1.drop 1).dropLast, true)
  else vr1

/-- A member of the goal document built by
`SidepanelInterpreter::getRequestFromPorts`: either copied from
`_blackboard[key]`, or a literal run through the type chain. -/
inductive GoalValue
  | fromBlackboard (key : String)
  | typedLiteral (typeName : String) (raw : String)
deriving DecidableEq, Repr

/-- `SidepanelInterpreter::getRequestFromPorts`: skips OUTPUT ports, and on
the first blackboard-reference port adds that member and returns the goal
immediately (the `return goal;` inside the loop). -/
def sidepanelGetRequestFromPorts : List PortEntry → List (String × GoalValue)
  | [] => []
  | p :: rest =>
    if p.direction = PortDirection.OUTPUT then sidepanelGetRequestFromPorts rest
    else if (getPortValue p.defaultValue p.mappingValue).2 then
      [(p.name, GoalValue.fromBlackboard
        (String.mk (getPortValue p.defaultValue p.mappingValue).1))]
    else (p.name, GoalValue.typedLiteral p.typeName
        (String.mk (getPortValue p.defaultValue p.mappingValue).1))
      :: sidepanelGetRequestFromPorts rest

/-- `Interpreter::getRequestFromPorts`: skips OUTPUT ports and adds a member
(via `getInputValue`) for every remaining port, propagating marshalling
errors. -/
def interpreterGetRequestFromPorts (reg nodeName : String) :
    List PortEntry → Except String (List (String × JsonKind))
  | [] => Except.ok []
  | p :: rest =>
    if p.direction = PortDirection.OUTPUT then
      interpreterGetRequestFromPorts reg nodeName rest
    else
      match getInputValue p.typeName p.name reg nodeName with
      | Except.error e => Except.error e
      | Except.ok k =>
        match interpreterGetRequestFromPorts reg nodeName rest with
        | Except.error e => Except.error e
        | Except.ok ms => Except.ok ((p.name, k) :: ms)

/-- Whether a port's value is a blackboard reference. -/
def isRefPort (p : PortEntry) : Bool := (getPortValue p.defaultValue p.mappingValue).2

/-- Whether a port survives the OUTPUT filter. -/
def nonOutputPort (p : PortEntry) : Bool := decide (p.direction ≠ PortDirection.OUTPUT)

/-- The member the sidepanel version adds for a non-reference port. -/
def literalMember (p : PortEntry) : String × GoalValue :=
  (p.name, GoalValue.typedLiteral p.typeName
    (String.mk (getPortValue p.defaultValue p.mappingValue).1))

/-- Concrete ports for the C10 witness: an OUTPUT port, a literal input, a
`$`-reference input, and a trailing input the early return drops. -/
def portOut : PortEntry := ⟨"out", PortDirection.OUTPUT, "string", ['x'], []⟩

def portLit : PortEntry := ⟨"lit", PortDirection.INPUT, "string", ['h', 'i'], []⟩

def portRef : PortEntry := ⟨"ref", PortDirection.INPUT, "string", [], ['$', 'k', 'e', 'y']⟩

def portAfter : PortEntry := ⟨"after", PortDirection.INPUT, "string", ['z'], []⟩

/-! ## Theorems -/

theorem update_range_false (mn sz : Int) (ns : StatusVec) :
    update_range false mn sz ns
      = ns.map (fun p => if mn < p.1 then (p.1 + sz, p.2) else p) := by
  unfold update_range
  simp

theorem update_range_true (mn sz : Int) (ns : StatusVec) :
    update_range true mn sz ns
      = ns.map (fun p => if mn + sz < p.1 then (p.1 - sz, p.2) else p) := by
  unfold update_range
  simp

theorem subSize_nonneg (tree : AbsTree) (j : Nat) : 0 ≤ subSize tree j := by
  simp [subSize]

theorem sumSizes_nonneg (tree : AbsTree) (i b : Nat) : 0 ≤ sumSizes tree i b := by
  refine List.sum_nonneg ?_
  intro x hx
  simp only [List.mem_map] at hx
  obtain ⟨j, _, rfl⟩ := hx
  exact subSize_nonneg tree j

theorem sumSizes_of_le (tree : AbsTree) {i b : Nat} (h : b ≤ i) : sumSizes tree i b = 0 := by
  simp [sumSizes, Nat.sub_eq_zero_of_le h]

theorem sumSizes_step (tree : AbsTree) {i b : Nat} (h : i < b) :
    sumSizes tree i b = subSize tree i + sumSizes tree (i + 1) b := by
  have hb : b - i = (b - (i + 1)) + 1 := by omega
  rw [sumSizes, hb, List.range'_succ]
  simp [sumSizes]

theorem sizesBelow_eq_sumSizes (tree : AbsTree) (v : Int) :
    sizesBelow tree v = sumSizes tree 0 v.toNat := by
  simp [sizesBelow, sumSizes, List.range_eq_range']

theorem le_foldl_max (l : StatusVec) (a : Int) :
    a ≤ l.foldl (fun m q => max m q.1) a := by
  induction l generalizing a with
  | nil => simp
  | cons p rest ih =>
    simpa using le_trans (le_max_left a p.1) (ih (max a p.1))

theorem mem_le_foldl_max (l : StatusVec) :
    ∀ (a : Int) {p : Int × NodeStatus}, p ∈ l → p.1 ≤ l.foldl (fun m q => max m q.1) a := by
  induction l with
  | nil => intro a p hp; cases hp
  | cons q rest ih =>
    intro a p hp
    rcases List.mem_cons.mp hp with h | h
    · subst h
      simpa using le_trans (le_max_right a p.1) (le_foldl_max rest (max a p.1))
    · simpa using ih (max a q.1) h

theorem le_maxFirst {ns : StatusVec} {p : Int × NodeStatus} (hp : p ∈ ns) :
    p.1 ≤ maxFirst ns := by
  cases ns with
  | nil => cases hp
  | cons q rest =>
    rcases List.mem_cons.mp hp with h | h
    · subst h
      exact le_foldl_max rest p.1
    · exact mem_le_foldl_max rest q.1 h

theorem translateNodeIndex_ne_nil (tree : AbsTree) {ns : StatusVec} (h : ns ≠ []) (ti : Bool) :
    translateNodeIndex tree ns ti
      = translateLoop tree ti ns (maxFirst ns).toNat 0 0 (maxFirst ns) ns := by
  cases ns with
  | nil => exact absurd rfl h
  | cons p rest => rfl

theorem translateLoop_false_map (tree : AbsTree) (ns0 : StatusVec) :
    ∀ fuel i (offset lci : Int) (ns : StatusVec),
      translateLoop tree false ns0 fuel i offset lci ns
        = ns.map (fun p => (p.1 + addAmt tree fuel i offset lci p.1, p.2)) := by
  intro fuel
  induction fuel with
  | zero =>
    intro i offset lci ns
    simp [translateLoop, addAmt]
  | succ fuel ih =>
    intro i offset lci ns
    by_cases hguard : (i : Int) < lci
    · rw [translateLoop, if_pos hguard]
      cases htree : tree i with
      | none =>
        rw [ih]
        refine List.map_congr_left ?_
        intro p _
        rw [addAmt, if_pos hguard, htree]
      | some s =>
        simp only [Bool.not_false, Bool.true_or, if_pos]
        rw [if_neg (by simp), ih, update_range_false, List.map_map]
        refine List.map_congr_left ?_
        intro p _
        rw [addAmt, if_pos hguard, htree]
        by_cases hp : (i : Int) + offset < p.1
        · simp [Function.comp, hp, add_assoc]
        · simp [Function.comp, hp]
    · rw [translateLoop, if_neg hguard]
      have : ∀ p : Int × NodeStatus, addAmt tree (fuel + 1) i offset lci p.1 = 0 := by
        intro p
        rw [addAmt, if_neg hguard]
      simp [this]

theorem addAmt_dead (tree : AbsTree) :
    ∀ fuel (i : Nat) (offset lci v : Int), v ≤ (i : Int) + offset →
      addAmt tree fuel i offset lci v = 0 := by
  intro fuel
  induction fuel with
  | zero => intro i offset lci v _; rfl
  | succ fuel ih =>
    intro i offset lci v hv
    by_cases hguard : (i : Int) < lci
    · cases htree : tree i with
      | none =>
        simp only [addAmt, htree, if_pos hguard]
        exact ih (i + 1) offset lci v (by push_cast; omega)
      | some s =>
        have hs : (0 : Int) ≤ (s : Int) := Int.natCast_nonneg s
        simp only [addAmt, htree, if_pos hguard]
        rw [if_neg (show ¬((i : Int) + offset < v) by omega)]
        exact ih (i + 1) (offset + (s : Int)) lci v (by push_cast; omega)
    · rw [addAmt, if_neg hguard]

theorem addAmt_closed (tree : AbsTree) :
    ∀ fuel (i : Nat) (offset lci v : Int),
      addAmt tree fuel i offset lci v
        = sumSizes tree i (min (min lci (v - offset)).toNat (i + fuel)) := by
  intro fuel
  induction fuel with
  | zero =>
    intro i offset lci v
    have hb : min (min lci (v - offset)).toNat (i + 0) ≤ i := by omega
    rw [sumSizes_of_le tree hb]
    rfl
  | succ fuel ih =>
    intro i offset lci v
    by_cases hguard : (i : Int) < lci
    · cases htree : tree i with
      | none =>
        simp only [addAmt, htree, if_pos hguard]
        rw [ih]
        have hsz : subSize tree i = 0 := by simp [subSize, htree]
        have harg : i + 1 + fuel = i + (fuel + 1) := by omega
        rw [harg]
        by_cases hb : min (min lci (v - offset)).toNat (i + (fuel + 1)) ≤ i
        · rw [sumSizes_of_le tree (show min (min lci (v - offset)).toNat (i + (fuel + 1)) ≤ i + 1 by omega),
              sumSizes_of_le tree hb]
        · have hlt : i < min (min lci (v - offset)).toNat (i + (fuel + 1)) := by omega
          rw [sumSizes_step tree hlt, hsz, zero_add]
      | some s =>
        have hs : (0 : Int) ≤ (s : Int) := Int.natCast_nonneg s
        simp only [addAmt, htree, if_pos hguard]
        by_cases hp : (i : Int) + offset < v
        · rw [if_pos hp, ih]
          have harg : (v + (s : Int)) - (offset + (s : Int)) = v - offset := by ring
          rw [harg]
          have hlo : (i : Int) < min lci (v - offset) := by omega
          have hlt : i < min (min lci (v - offset)).toNat (i + (fuel + 1)) := by omega
          rw [sumSizes_step tree hlt]
          have hsz : subSize tree i = (s : Int) := by simp [subSize, htree]
          rw [hsz]
          have harg2 : i + 1 + fuel = i + (fuel + 1) := by omega
          rw [harg2]
        · rw [if_neg hp]
          rw [addAmt_dead tree fuel (i + 1) (offset + (s : Int)) lci v (by push_cast; omega)]
          have hb : min (min lci (v - offset)).toNat (i + (fuel + 1)) ≤ i := by omega
          rw [sumSizes_of_le tree hb]
    · rw [addAmt, if_neg hguard]
      have hb : min (min lci (v - offset)).toNat (i + (fuel + 1)) ≤ i := by omega
      rw [sumSizes_of_le tree hb]

/-- Closed form of the `tree_index = false` translation: every entry becomes
`specToExec` of itself. -/
theorem translateNodeIndex_false_eq (tree : AbsTree) {ns : StatusVec} (h : ns ≠ []) :
    translateNodeIndex tree ns false = ns.map (fun p => (specToExec tree p.1, p.2)) := by
  rw [translateNodeIndex_ne_nil tree h, translateLoop_false_map]
  refine List.map_congr_left ?_
  intro p hp
  have hle : p.1 ≤ maxFirst ns := le_maxFirst hp
  rw [addAmt_closed]
  have hmin : min (min (maxFirst ns) (p.1 - 0)).toNat (0 + (maxFirst ns).toNat)
      = p.1.toNat := by omega
  rw [hmin, specToExec, sizesBelow_eq_sumSizes]

theorem toNat_cast_nat (a : Nat) : ((a : Int)).toNat = a := rfl

theorem sumSizes_split (tree : AbsTree) {i m b : Nat} (him : i ≤ m) (hmb : m ≤ b) :
    sumSizes tree i b = sumSizes tree i m + sumSizes tree m b := by
  have h1 : (b - m) + (m - i) = b - i := by omega
  have h2 : i + 1 * (m - i) = m := by omega
  rw [sumSizes, ← h1, ← List.range'_append, h2, List.map_append, List.sum_append]
  rfl

theorem execPos_succ (tree : AbsTree) (j : Nat) :
    execPos tree (j + 1) = execPos tree j + subSize tree j + 1 := by
  unfold execPos specToExec
  rw [sizesBelow_eq_sumSizes, sizesBelow_eq_sumSizes]
  simp only [toNat_cast_nat]
  have h1 : sumSizes tree 0 (j + 1) = sumSizes tree 0 j + sumSizes tree j (j + 1) :=
    sumSizes_split tree (by omega) (by omega)
  have h2 : sumSizes tree j (j + 1) = subSize tree j + sumSizes tree (j + 1) (j + 1) :=
    sumSizes_step tree (by omega)
  have h3 := sumSizes_of_le tree (le_refl (j + 1))
  push_cast
  omega

theorem execPos_mono (tree : AbsTree) : Monotone (execPos tree) := by
  intro a b hab
  unfold execPos specToExec
  rw [sizesBelow_eq_sumSizes, sizesBelow_eq_sumSizes]
  simp only [toNat_cast_nat]
  have h1 := sumSizes_split tree (Nat.zero_le a) hab
  have h2 := sumSizes_nonneg tree a b
  omega

theorem curVal_zero (tree : AbsTree) (u : Nat) : curVal tree 0 u = execPos tree u := by
  have hmin : min 0 u = 0 := by omega
  rw [curVal, hmin, execPos, specToExec, sizesBelow_eq_sumSizes, toNat_cast_nat]

theorem curVal_of_le (tree : AbsTree) {i u : Nat} (h : u ≤ i) :
    curVal tree i u = (u : Int) := by
  have hmin : min i u = u := by omega
  rw [curVal, hmin, sumSizes_of_le tree (le_refl u), add_zero]

theorem curVal_of_lt (tree : AbsTree) {i u : Nat} (h : i < u) :
    curVal tree i u = (u : Int) + subSize tree i + sumSizes tree (i + 1) u := by
  have hmin : min i u = i := by omega
  rw [curVal, hmin, sumSizes_step tree h, add_assoc]

theorem le_foldl_maxN (l : List (Nat × NodeStatus)) :
    ∀ a : Nat, a ≤ l.foldl (fun m q => max m q.1) a := by
  induction l with
  | nil => intro a; simp
  | cons p rest ih =>
    intro a
    simpa using le_trans (le_max_left a p.1) (ih (max a p.1))

theorem mem_le_foldl_maxN (l : List (Nat × NodeStatus)) :
    ∀ (a : Nat) {p : Nat × NodeStatus}, p ∈ l → p.1 ≤ l.foldl (fun m q => max m q.1) a := by
  induction l with
  | nil => intro a p hp; cases hp
  | cons q rest ih =>
    intro a p hp
    rcases List.mem_cons.mp hp with h | h
    · subst h
      simpa using le_trans (le_max_right a p.1) (le_foldl_maxN rest (max a p.1))
    · simpa using ih (max a q.1) h

theorem le_maxFirstNat {us : List (Nat × NodeStatus)} {q : Nat × NodeStatus} (h : q ∈ us) :
    q.1 ≤ maxFirstNat us := by
  cases us with
  | nil => cases h
  | cons p rest =>
    rcases List.mem_cons.mp h with h1 | h1
    · subst h1
      exact le_foldl_maxN rest q.1
    · exact mem_le_foldl_maxN rest p.1 h1

theorem foldl_max_map_comm (f : Nat → Int)
    (hf : ∀ a b : Nat, f (max a b) = max (f a) (f b)) :
    ∀ (l : List (Nat × NodeStatus)) (a : Nat),
      (l.map (fun q => (f q.1, q.2))).foldl (fun m q => max m q.1) (f a)
        = f (l.foldl (fun m q => max m q.1) a) := by
  intro l
  induction l with
  | nil => intro a; rfl
  | cons p rest ih =>
    intro a
    simp only [List.map_cons, List.foldl_cons]
    rw [← hf a p.1]
    exact ih (max a p.1)

theorem maxFirst_map {f : Nat → Int} (hf : Monotone f)
    {us : List (Nat × NodeStatus)} (h : us ≠ []) :
    maxFirst (us.map (fun q => (f q.1, q.2))) = f (maxFirstNat us) := by
  cases us with
  | nil => exact absurd rfl h
  | cons p rest =>
    simpa only [List.map_cons, maxFirst, maxFirstNat] using
      foldl_max_map_comm f (fun a b => hf.map_max) rest p.1

theorem exists_preimage (f : Nat → Int) :
    ∀ (ns : StatusVec), (∀ p ∈ ns, ∃ u : Nat, p.1 = f u) →
      ∃ us : List (Nat × NodeStatus), ns = us.map (fun q => (f q.1, q.2)) := by
  intro ns
  induction ns with
  | nil => intro _; exact ⟨[], rfl⟩
  | cons p rest ih =>
    intro h
    obtain ⟨p1, p2⟩ := p
    obtain ⟨u, hu⟩ := h (p1, p2) (List.mem_cons_self _ rest)
    obtain ⟨us, hus⟩ := ih (fun q hq => h q (List.mem_cons_of_mem _ hq))
    refine ⟨(u, p2) :: us, ?_⟩
    simp only [List.map_cons, ← hus]
    simp only at hu
    rw [hu]

/-- The loop of `translateNodeIndex` with `tree_index = true`, run on entries
that are the execution indices of visible nodes, with the by-value
`check_range` copy never reporting a containment: it converts each entry to
its abstract (GUI) index. -/
theorem translateLoop_true_eq (tree : AbsTree) (ns0 : StatusVec)
    (hchk : ∀ (j s : Nat), tree j = some s →
      check_range ns0 (j : Int) (s : Int) = false) :
    ∀ fuel (i : Nat) (us : List (Nat × NodeStatus)),
      maxFirstNat us ≤ i + fuel →
      translateLoop tree true ns0 fuel i 0 (curVal tree i (maxFirstNat us))
          (us.map (fun q => (curVal tree i q.1, q.2)))
        = us.map (fun q => ((q.1 : Int), q.2)) := by
  intro fuel
  induction fuel with
  | zero =>
    intro i us hfuel
    simp only [translateLoop]
    refine List.map_congr_left ?_
    intro q hq
    have hle : q.1 ≤ maxFirstNat us := le_maxFirstNat hq
    rw [curVal_of_le tree (by omega)]
  | succ fuel ih =>
    intro i us hfuel
    by_cases hiM : maxFirstNat us ≤ i
    · have hcv : curVal tree i (maxFirstNat us) = ((maxFirstNat us : Nat) : Int) :=
        curVal_of_le tree hiM
      rw [translateLoop, if_neg (by rw [hcv]; omega)]
      refine List.map_congr_left ?_
      intro q hq
      have hle : q.1 ≤ maxFirstNat us := le_maxFirstNat hq
      rw [curVal_of_le tree (by omega)]
    · push_neg at hiM
      have hguard : (i : Int) < curVal tree i (maxFirstNat us) := by
        have h1 := sumSizes_nonneg tree i (maxFirstNat us)
        have h2 : min i (maxFirstNat us) = i := by omega
        rw [curVal, h2]
        omega
      cases htree : tree i with
      | none =>
        have hsz : subSize tree i = 0 := by simp [subSize, htree]
        have hcv : ∀ u : Nat, curVal tree i u = curVal tree (i + 1) u := by
          intro u
          by_cases hu : u ≤ i
          · rw [curVal_of_le tree hu, curVal_of_le tree (by omega)]
          · push_neg at hu
            rw [curVal_of_lt tree hu, hsz, add_zero]
            by_cases hu1 : u ≤ i + 1
            · have : u = i + 1 := by omega
              subst this
              rw [curVal_of_le tree (le_refl (i + 1)), sumSizes_of_le tree (le_refl (i + 1)),
                add_zero]
            · push_neg at hu1
              rw [curVal, min_eq_left (by omega)]
        rw [translateLoop, if_pos hguard]
        simp only [htree]
        rw [hcv (maxFirstNat us)]
        have hmap : us.map (fun q => (curVal tree i q.1, q.2))
            = us.map (fun q => (curVal tree (i + 1) q.1, q.2)) := by
          refine List.map_congr_left ?_
          intro q _
          rw [hcv q.1]
        rw [hmap]
        exact ih (i + 1) us (by omega)
      | some s =>
        have hchkf := hchk i s htree
        rw [translateLoop, if_pos hguard]
        simp only [htree, hchkf, Bool.not_true, Bool.false_or, Bool.not_false, Bool.true_or,
          if_pos, ite_true]
        have hsz : subSize tree i = (s : Int) := by simp [subSize, htree]
        have hs0 : (0 : Int) ≤ (s : Int) := Int.natCast_nonneg s
        have hcv : ∀ u : Nat, (if (i : Int) + 0 + (s : Int) < curVal tree i u
              then (curVal tree i u - (s : Int)) else curVal tree i u)
            = curVal tree (i + 1) u := by
          intro u
          by_cases hu : u ≤ i
          · rw [curVal_of_le tree hu, curVal_of_le tree (by omega),
              if_neg (by omega)]
          · push_neg at hu
            have hrest := sumSizes_nonneg tree (i + 1) u
            rw [curVal_of_lt tree hu, hsz]
            rw [if_pos (by omega)]
            by_cases hu1 : u ≤ i + 1
            · have : u = i + 1 := by omega
              subst this
              rw [curVal_of_le tree (le_refl (i + 1)), sumSizes_of_le tree (le_refl (i + 1))]
              ring
            · push_neg at hu1
              rw [curVal, min_eq_left (by omega)]
              ring
        have hlci : curVal tree i (maxFirstNat us) - (s : Int)
            = curVal tree (i + 1) (maxFirstNat us) := by
          rw [← hcv (maxFirstNat us), if_pos]
          rw [curVal_of_lt tree hiM, hsz]
          have hrest := sumSizes_nonneg tree (i + 1) (maxFirstNat us)
          omega
        have hns : update_range true ((i : Int) + 0) ((s : Nat) : Int)
              (us.map (fun q => (curVal tree i q.1, q.2)))
            = us.map (fun q => (curVal tree (i + 1) q.1, q.2)) := by
          rw [update_range_true, List.map_map]
          refine List.map_congr_left ?_
          intro q _
          simp only [Function.comp]
          rw [← hcv q.1]
          by_cases hcond : (i : Int) + 0 + (s : Int) < curVal tree i q.1
          · rw [if_pos hcond, if_pos hcond]
          · rw [if_neg hcond, if_neg hcond]
        rw [hns, hlci]
        exact ih (i + 1) us (by omega)

/-- `specToGui` inverts `execPos`: the claimed decreasing map sends the
execution index of a visible node back to its abstract position. -/
theorem specToGui_execPos (tree : AbsTree) (u : Nat) :
    specToGui tree (execPos tree u) = (u : Int) := by
  have hnn : (0 : Int) ≤ sizesBelow tree (u : Int) := by
    rw [sizesBelow_eq_sumSizes]; exact sumSizes_nonneg tree 0 _
  have huv : (u : Int) ≤ execPos tree u := by
    rw [execPos, specToExec]; omega
  have hfun : (fun j => if execPos tree j + subSize tree j < execPos tree u
        then subSize tree j else 0)
      = (fun j => if j < u then subSize tree j else 0) := by
    funext j
    by_cases hj : j < u
    · rw [if_pos hj, if_pos]
      calc execPos tree j + subSize tree j
          < execPos tree j + subSize tree j + 1 := by omega
        _ = execPos tree (j + 1) := (execPos_succ tree j).symm
        _ ≤ execPos tree u := execPos_mono tree (by omega)
    · rw [if_neg hj, if_neg]
      push_neg
      have h1 : execPos tree u ≤ execPos tree j := execPos_mono tree (by omega)
      have h2 := subSize_nonneg tree j
      omega
  rw [specToGui, hfun]
  have hsum : ∀ b : Nat, u ≤ b →
      ((List.range b).map (fun j => if j < u then subSize tree j else 0)).sum
        = ((List.range u).map (fun j => subSize tree j)).sum := by
    intro b
    induction b with
    | zero =>
      intro hb
      have : u = 0 := by omega
      subst this
      rfl
    | succ b ihb =>
      intro hb
      by_cases hub : u ≤ b
      · rw [List.range_succ, List.map_append, List.sum_append, ihb hub]
        have : ¬(b < u) := by omega
        simp [this]
      · have : u = b + 1 := by omega
        subst this
        refine congrArg List.sum (List.map_congr_left ?_)
        intro j hj
        rw [if_pos (List.mem_range.mp hj)]
  have hub : u ≤ (execPos tree u).toNat := by omega
  rw [hsum (execPos tree u).toNat hub]
  have : ((List.range u).map (fun j => subSize tree j)).sum = sizesBelow tree (u : Int) := by
    rw [sizesBelow, toNat_cast_nat]
  rw [this, execPos, specToExec]
  ring

/-- Closed form of the `tree_index = true` translation under the two
hypotheses that make the loop regular: every entry is the execution index of a
visible node, and no entry lies in the raw containment window `(j, j + s]`
that `check_range` tests against the untranslated entries. -/
theorem translateNodeIndex_true_eq (tree : AbsTree) {ns : StatusVec} (hne : ns ≠ [])
    (hvis : ∀ p ∈ ns, ∃ u : Nat, p.1 = execPos tree u)
    (hwin : ∀ p ∈ ns, ∀ (j s : Nat), tree j = some s →
      ¬((j : Int) < p.1 ∧ p.1 ≤ (j : Int) + (s : Int))) :
    translateNodeIndex tree ns true = ns.map (fun p => (specToGui tree p.1, p.2)) := by
  obtain ⟨us, rfl⟩ := exists_preimage (execPos tree) ns hvis
  have husne : us ≠ [] := by
    intro h
    subst h
    exact hne rfl
  have hchk : ∀ (j s : Nat), tree j = some s →
      check_range (us.map (fun q => (execPos tree q.1, q.2))) (j : Int) (s : Int) = false := by
    intro j s hjs
    rw [check_range, List.any_eq_false]
    intro p hp
    have hw := hwin p hp j s hjs
    simp only [Bool.and_eq_true, decide_eq_true_eq, not_and]
    intro h1 h2
    exact hw ⟨h1, by omega⟩
  rw [translateNodeIndex_ne_nil tree hne, maxFirst_map (execPos_mono tree) husne]
  have hfuel : maxFirstNat us ≤ 0 + (execPos tree (maxFirstNat us)).toNat := by
    have h1 : ((maxFirstNat us : Nat) : Int) ≤ execPos tree (maxFirstNat us) := by
      have := sumSizes_nonneg tree 0 (maxFirstNat us)
      rw [execPos, specToExec, sizesBelow_eq_sumSizes, toNat_cast_nat]
      omega
    omega
  have hm0 : execPos tree (maxFirstNat us) = curVal tree 0 (maxFirstNat us) :=
    (curVal_zero tree (maxFirstNat us)).symm
  have hns0 : us.map (fun q => (execPos tree q.1, q.2))
      = us.map (fun q => (curVal tree 0 q.1, q.2)) := by
    refine List.map_congr_left ?_
    intro q _
    rw [curVal_zero]
  calc translateLoop tree true (us.map (fun q => (execPos tree q.1, q.2)))
        (execPos tree (maxFirstNat us)).toNat 0 0 (execPos tree (maxFirstNat us))
        (us.map (fun q => (execPos tree q.1, q.2)))
      = translateLoop tree true (us.map (fun q => (execPos tree q.1, q.2)))
        (execPos tree (maxFirstNat us)).toNat 0 0 (curVal tree 0 (maxFirstNat us))
        (us.map (fun q => (curVal tree 0 q.1, q.2))) := by rw [← hm0, ← hns0]
    _ = us.map (fun q => ((q.1 : Int), q.2)) :=
        translateLoop_true_eq tree _ hchk _ 0 us hfuel
    _ = (us.map (fun q => (execPos tree q.1, q.2))).map
          (fun p => (specToGui tree p.1, p.2)) := by
        rw [List.map_map]
        refine List.map_congr_left ?_
        intro q _
        simp only [Function.comp]
        rw [specToGui_execPos]

/-- Round trip: translating visible, window-free execution indices to GUI
indices and back restores the input. -/
theorem translate_roundtrip (tree : AbsTree) {ns : StatusVec} (hne : ns ≠ [])
    (hvis : ∀ p ∈ ns, ∃ u : Nat, p.1 = execPos tree u)
    (hwin : ∀ p ∈ ns, ∀ (j s : Nat), tree j = some s →
      ¬((j : Int) < p.1 ∧ p.1 ≤ (j : Int) + (s : Int))) :
    translateNodeIndex tree (translateNodeIndex tree ns true) false = ns := by
  obtain ⟨us, rfl⟩ := exists_preimage (execPos tree) ns hvis
  have husne : us ≠ [] := by
    intro h
    subst h
    exact hne rfl
  have h2 : translateNodeIndex tree (us.map (fun q => (execPos tree q.1, q.2))) true
      = us.map (fun q => ((q.1 : Int), q.2)) := by
    rw [translateNodeIndex_true_eq tree hne hvis hwin, List.map_map]
    refine List.map_congr_left ?_
    intro q _
    simp only [Function.comp]
    rw [specToGui_execPos]
  rw [h2]
  have hne2 : us.map (fun q => ((q.1 : Int), q.2)) ≠ [] := by
    intro h
    exact husne (List.map_eq_nil_iff.mp h)
  rw [translateNodeIndex_false_eq tree hne2, List.map_map]
  rfl

/-- C1 (amended): for a non-empty status vector, `translateNodeIndex` with
`tree_index = false` increases every index strictly after a collapsed
subtree's root by that subtree's hidden-node count, accumulating over all
collapsed subtrees preceding the index (`specToExec`); with
`tree_index = true` it decreases every index lying strictly after a collapsed
subtree by that subtree's size (`specToGui`), *provided* every index is the
execution index of a visible node and no index lies in the raw window
`(j, j + size]` of a collapsed subtree at abstract position `j` — the
containment test `check_range` compares the untranslated input indices with
abstract positions, and a subtree that trips it is skipped and contributes no
adjustment. -/
theorem claim_C1 (tree : AbsTree) (ns : StatusVec) (hne : ns ≠ []) :
    translateNodeIndex tree ns false = ns.map (fun p => (specToExec tree p.1, p.2))
    ∧ ((∀ p ∈ ns, ∃ u : Nat, p.1 = execPos tree u) →
       (∀ p ∈ ns, ∀ (j s : Nat), tree j = some s →
         ¬((j : Int) < p.1 ∧ p.1 ≤ (j : Int) + (s : Int))) →
       translateNodeIndex tree ns true = ns.map (fun p => (specToGui tree p.1, p.2))) :=
  ⟨translateNodeIndex_false_eq tree hne,
   fun hvis hwin => translateNodeIndex_true_eq tree hne hvis hwin⟩

/-- C1 counterexample to the claim as stated: with a collapsed subtree of two
hidden nodes at position 0 and entries 1 and 4, entry 1 lies in the subtree's
range, `check_range` trips, the subtree is skipped, and entry 4 — although
strictly after the collapsed subtree — is *not* decreased by 2 as the claim's
unconditional description demands. -/
theorem claim_C1_counterexample :
    ([((1 : Int), NodeStatus.RUNNING), ((4 : Int), NodeStatus.RUNNING)] : StatusVec) ≠ []
    ∧ translateNodeIndex treeOneSub
        [((1 : Int), NodeStatus.RUNNING), ((4 : Int), NodeStatus.RUNNING)] true
      ≠ [((1 : Int), NodeStatus.RUNNING), ((4 : Int), NodeStatus.RUNNING)].map
          (fun p => (specToGui treeOneSub p.1, p.2)) := by
  exact ⟨by decide, by decide⟩

/-- C1 witness: both directions of the amended claim evaluated at a concrete
input (subtree of two hidden nodes at position 0, single entry 3 = the
execution index of the visible node at abstract position 1). -/
theorem claim_C1_witness :
    translateNodeIndex treeOneSub [((3 : Int), NodeStatus.RUNNING)] false
        = [((3 : Int), NodeStatus.RUNNING)].map (fun p => (specToExec treeOneSub p.1, p.2))
    ∧ translateNodeIndex treeOneSub [((3 : Int), NodeStatus.RUNNING)] true
        = [((3 : Int), NodeStatus.RUNNING)].map (fun p => (specToGui treeOneSub p.1, p.2)) := by
  have h := claim_C1 treeOneSub [((3 : Int), NodeStatus.RUNNING)] (by decide)
  refine ⟨h.1, h.2 ?_ ?_⟩
  · intro p hp
    simp only [List.mem_singleton] at hp
    subst hp
    exact ⟨1, by decide⟩
  · intro p hp j s hjs
    simp only [List.mem_singleton] at hp
    subst hp
    by_cases hj : j = 0
    · subst hj
      simp [treeOneSub] at hjs
      intro hcon
      omega
    · simp [treeOneSub, hj] at hjs

/-- C2 (amended): the round trip (`tree_index = true` then `false`) restores
every index of a non-empty status vector, provided every index is the
execution index of a visible node (no index inside a collapsed subtree's
hidden range) *and* no index lies in the raw window `(j, j + size]` of a
collapsed subtree at abstract position `j` (the range check compares
untranslated indices with abstract positions). -/
theorem claim_C2 (tree : AbsTree) (ns : StatusVec) (hne : ns ≠ [])
    (hvis : ∀ p ∈ ns, ∃ u : Nat, p.1 = execPos tree u)
    (hwin : ∀ p ∈ ns, ∀ (j s : Nat), tree j = some s →
      ¬((j : Int) < p.1 ∧ p.1 ≤ (j : Int) + (s : Int))) :
    translateNodeIndex tree (translateNodeIndex tree ns true) false = ns :=
  translate_roundtrip tree hne hvis hwin

/-- C2 counterexample to the claim as stated: subtrees of one hidden node at
positions 0 and 2, entries 3 and 5.  Both entries are execution indices of
visible nodes (3 = `execPos 2`, 5 = `execPos 3`), so no index falls in a
hidden range; yet the untranslated entry 3 lies in the raw window `(2, 3]` of
the subtree at position 2, that subtree is skipped on the way in, and the
round trip turns 5 into 6. -/
theorem claim_C2_counterexample :
    (([((3 : Int), NodeStatus.RUNNING), ((5 : Int), NodeStatus.SUCCESS)] : StatusVec) ≠ [])
    ∧ (3 : Int) = execPos treeTwoSubs 2
    ∧ (5 : Int) = execPos treeTwoSubs 3
    ∧ translateNodeIndex treeTwoSubs
        (translateNodeIndex treeTwoSubs
          [((3 : Int), NodeStatus.RUNNING), ((5 : Int), NodeStatus.SUCCESS)] true) false
      ≠ [((3 : Int), NodeStatus.RUNNING), ((5 : Int), NodeStatus.SUCCESS)] := by
  exact ⟨by decide, by decide, by decide, by decide⟩

/-- C2 witness: the amended round trip at a concrete input satisfying both
hypotheses. -/
theorem claim_C2_witness :
    translateNodeIndex treeOneSub
        (translateNodeIndex treeOneSub [((3 : Int), NodeStatus.RUNNING)] true) false
      = [((3 : Int), NodeStatus.RUNNING)] := by
  refine claim_C2 treeOneSub [((3 : Int), NodeStatus.RUNNING)] (by decide) ?_ ?_
  · intro p hp
    simp only [List.mem_singleton] at hp
    subst hp
    exact ⟨1, by decide⟩
  · intro p hp j s hjs
    simp only [List.mem_singleton] at hp
    subst hp
    by_cases hj : j = 0
    · subst hj
      simp [treeOneSub] at hjs
      intro hcon
      omega
    · simp [treeOneSub, hj] at hjs

theorem tickBlock_first (cr : Bool) (i : Nat) (n : TickNode) {p : Int × NodeStatus}
    (hp : p ∈ tickBlock cr i n) : p.1 = (i : Int) := by
  obtain ⟨st, _, rfl⟩ := List.mem_map.mp hp
  rfl

theorem tickBlockStatuses_ne_nil_iff (cr : Bool) (n : TickNode) :
    tickBlockStatuses cr n ≠ [] ↔ tickEntryCond n := by
  unfold tickBlockStatuses tickEntryCond
  by_cases h1 : n.newStatus = n.prevStatus
  · rw [if_neg (by simp [h1])]
    by_cases h2 : n.newStatus = NodeStatus.RUNNING ∧ n.ntype ≠ NodeType.CONDITION
    · rw [if_pos h2]
      constructor
      · intro _
        exact Or.inr ⟨by rw [← h1]; exact h2.1, h2.1, h2.2⟩
      · intro _
        simp
    · rw [if_neg h2]
      constructor
      · intro h
        exact absurd rfl h
      · rintro (h | ⟨hp, hn, ht⟩)
        · exact absurd h1 h
        · exact absurd ⟨hn, ht⟩ h2
  · rw [if_pos h1]
    constructor
    · intro _
      exact Or.inl h1
    · intro _
      simp

theorem tickChangesAux_first_ge (cr : Bool) :
    ∀ (i : Nat) (nodes : List TickNode) (p : Int × NodeStatus),
      p ∈ tickChangesAux cr i nodes → (i : Int) ≤ p.1 := by
  intro i nodes
  induction nodes generalizing i with
  | nil => intro p hp; cases hp
  | cons n rest ih =>
    intro p hp
    rcases List.mem_append.mp hp with h | h
    · rw [tickBlock_first cr i n h]
    · have := ih (i + 1) p h
      push_cast at this
      omega

theorem tickChangesAux_mem_iff (cr : Bool) :
    ∀ (i : Nat) (nodes : List TickNode) (k : Nat) (hk : k < nodes.length),
      (∃ st, (((i + k : Nat) : Int), st) ∈ tickChangesAux cr i nodes)
        ↔ tickEntryCond (nodes.get ⟨k, hk⟩) := by
  intro i nodes
  induction nodes generalizing i with
  | nil =>
    intro k hk
    exact absurd hk (by simp)
  | cons n rest ih =>
    intro k hk
    cases k with
    | zero =>
      simp only [Nat.add_zero, List.get]
      constructor
      · rintro ⟨st, hst⟩
        rcases List.mem_append.mp hst with h | h
        · obtain ⟨st', hst', _⟩ := List.mem_map.mp h
          exact (tickBlockStatuses_ne_nil_iff cr n).mp (List.ne_nil_of_mem hst')
        · have := tickChangesAux_first_ge cr (i + 1) rest _ h
          simp only at this
          omega
      · intro hcond
        obtain ⟨st, hst⟩ :=
          List.exists_mem_of_ne_nil _ ((tickBlockStatuses_ne_nil_iff cr n).mpr hcond)
        exact ⟨st, List.mem_append_left _ (List.mem_map.mpr ⟨st, hst, rfl⟩)⟩
    | succ k =>
      have hk' : k < rest.length := by simpa using hk
      have harg : ((i + (k + 1) : Nat) : Int) = (((i + 1) + k : Nat) : Int) := by
        push_cast
        ring
      have hget : (n :: rest).get ⟨k + 1, hk⟩ = rest.get ⟨k, hk'⟩ := rfl
      rw [hget, ← ih (i + 1) k hk']
      constructor
      · rintro ⟨st, hst⟩
        rcases List.mem_append.mp hst with h | h
        · have := tickBlock_first cr i n h
          simp only at this
          omega
        · exact ⟨st, by rw [← harg]; exact h⟩
      · rintro ⟨st, hst⟩
        exact ⟨st, List.mem_append_right _ (by rw [harg]; exact hst)⟩

theorem tickChangesAux_block (cr : Bool) :
    ∀ (i : Nat) (nodes : List TickNode) (k : Nat) (hk : k < nodes.length),
      ∃ l1 l2, tickChangesAux cr i nodes
        = l1 ++ tickBlock cr (i + k) (nodes.get ⟨k, hk⟩) ++ l2 := by
  intro i nodes
  induction nodes generalizing i with
  | nil =>
    intro k hk
    exact absurd hk (by simp)
  | cons n rest ih =>
    intro k hk
    cases k with
    | zero =>
      refine ⟨[], tickChangesAux cr (i + 1) rest, ?_⟩
      simp [tickChangesAux]
    | succ k =>
      have hk' : k < rest.length := by simpa using hk
      obtain ⟨l1, l2, h⟩ := ih (i + 1) k hk'
      refine ⟨tickBlock cr i n ++ l1, l2, ?_⟩
      have hidx : (i + 1) + k = i + (k + 1) := by omega
      have hget : (n :: rest).get ⟨k + 1, hk⟩ = rest.get ⟨k, hk'⟩ := rfl
      rw [tickChangesAux, h, hget, ← hidx]
      simp [List.append_assoc]

/-- C3: after a tick, the vector `tickRoot` emits contains index 0 iff the
root status changed (carrying the new root status); it contains an index
`i = 1 + k` iff node `k`'s status changed or it is an unchanged `RUNNING`
non-condition node (`tickEntryCond`); when a node's new status is `IDLE` its
previous status is pushed immediately before the `IDLE` entry; and a forced
update of an unchanged `RUNNING` non-condition node is followed immediately
by an `IDLE` entry when a condition evaluation is pending. -/
theorem claim_C3 (rootPrev rootNew : NodeStatus) (nodes : List TickNode) (cr : Bool) :
    ((∃ st, ((0 : Int), st) ∈ tickRootChanges rootPrev rootNew nodes cr)
      ↔ rootNew ≠ rootPrev)
    ∧ (rootNew ≠ rootPrev →
        ((0 : Int), rootNew) ∈ tickRootChanges rootPrev rootNew nodes cr)
    ∧ (∀ (k : Nat) (hk : k < nodes.length),
        (∃ st, (((1 + k : Nat) : Int), st) ∈ tickRootChanges rootPrev rootNew nodes cr)
          ↔ tickEntryCond (nodes.get ⟨k, hk⟩))
    ∧ (∀ (k : Nat) (hk : k < nodes.length),
        (nodes.get ⟨k, hk⟩).newStatus = NodeStatus.IDLE →
        (nodes.get ⟨k, hk⟩).newStatus ≠ (nodes.get ⟨k, hk⟩).prevStatus →
        ∃ l1 l2, tickRootChanges rootPrev rootNew nodes cr
          = l1 ++ [(((1 + k : Nat) : Int), (nodes.get ⟨k, hk⟩).prevStatus),
                   (((1 + k : Nat) : Int), NodeStatus.IDLE)] ++ l2)
    ∧ (∀ (k : Nat) (hk : k < nodes.length),
        (nodes.get ⟨k, hk⟩).newStatus = (nodes.get ⟨k, hk⟩).prevStatus →
        (nodes.get ⟨k, hk⟩).newStatus = NodeStatus.RUNNING →
        (nodes.get ⟨k, hk⟩).ntype ≠ NodeType.CONDITION →
        cr = true →
        ∃ l1 l2, tickRootChanges rootPrev rootNew nodes cr
          = l1 ++ [(((1 + k : Nat) : Int), NodeStatus.RUNNING),
                   (((1 + k : Nat) : Int), NodeStatus.IDLE)] ++ l2) := by
  refine ⟨?_, ?_, ?_, ?_, ?_⟩
  · constructor
    · rintro ⟨st, hst⟩
      rcases List.mem_append.mp hst with h | h
      · by_cases hr : rootNew = rootPrev
        · rw [if_neg (by simp [hr])] at h
          cases h
        · exact hr
      · have := tickChangesAux_first_ge cr 1 nodes _ h
        simp only at this
        omega
    · intro h
      refine ⟨rootNew, List.mem_append_left _ ?_⟩
      rw [if_pos h]
      exact List.mem_singleton.mpr rfl
  · intro h
    refine List.mem_append_left _ ?_
    rw [if_pos h]
    exact List.mem_singleton.mpr rfl
  · intro k hk
    rw [← tickChangesAux_mem_iff cr 1 nodes k hk]
    constructor
    · rintro ⟨st, hst⟩
      rcases List.mem_append.mp hst with h | h
      · exfalso
        by_cases hr : rootNew = rootPrev
        · rw [if_neg (by simp [hr])] at h
          cases h
        · rw [if_pos hr] at h
          have := List.mem_singleton.mp h
          have h0 : ((1 + k : Nat) : Int) = 0 := congrArg Prod.fst this
          push_cast at h0
          omega
      · exact ⟨st, h⟩
    · rintro ⟨st, hst⟩
      exact ⟨st, List.mem_append_right _ hst⟩
  · intro k hk hidle hneq
    obtain ⟨l1, l2, h⟩ := tickChangesAux_block cr 1 nodes k hk
    refine ⟨(if rootNew ≠ rootPrev then [((0 : Int), rootNew)] else []) ++ l1, l2, ?_⟩
    rw [tickRootChanges, h]
    have hblk : tickBlock cr (1 + k) (nodes.get ⟨k, hk⟩)
        = [(((1 + k : Nat) : Int), (nodes.get ⟨k, hk⟩).prevStatus),
           (((1 + k : Nat) : Int), NodeStatus.IDLE)] := by
      rw [tickBlock, tickBlockStatuses, if_pos hneq, if_pos hidle, ← hidle]
      rfl
    rw [hblk]
    simp [List.append_assoc]
  · intro k hk heq hrun htype hcr
    obtain ⟨l1, l2, h⟩ := tickChangesAux_block cr 1 nodes k hk
    refine ⟨(if rootNew ≠ rootPrev then [((0 : Int), rootNew)] else []) ++ l1, l2, ?_⟩
    rw [tickRootChanges, h]
    have hblk : tickBlock cr (1 + k) (nodes.get ⟨k, hk⟩)
        = [(((1 + k : Nat) : Int), NodeStatus.RUNNING),
           (((1 + k : Nat) : Int), NodeStatus.IDLE)] := by
      rw [tickBlock, tickBlockStatuses, if_neg (not_not_intro heq), if_pos ⟨hrun, htype⟩,
        hcr, hrun]
      rfl
    rw [hblk]
    simp [List.append_assoc]

theorem successCheck_iff (result : List (String × JsonValue)) :
    successCheck result = true
      ↔ findMember result "success" = some (JsonValue.jbool true) := by
  unfold successCheck
  cases h : findMember result "success" with
  | none => simp
  | some v =>
    cases v with
    | jbool b => cases b <;> simp
    | jnull => simp
    | jnumber n => simp
    | jstring s => simp
    | jarray es => simp
    | jobject ms => simp

theorem successStatus_eq (result : List (String × JsonValue)) :
    ((if successCheck result then NodeStatus.SUCCESS else NodeStatus.FAILURE)
        = NodeStatus.SUCCESS
      ↔ findMember result "success" = some (JsonValue.jbool true))
    ∧ ((if successCheck result then NodeStatus.SUCCESS else NodeStatus.FAILURE)
        = NodeStatus.FAILURE
      ↔ findMember result "success" ≠ some (JsonValue.jbool true)) := by
  have hiff := successCheck_iff result
  cases hsc : successCheck result with
  | false =>
    have hne : findMember result "success" ≠ some (JsonValue.jbool true) := by
      intro hc
      rw [hiff.mpr hc] at hsc
      cases hsc
    refine ⟨?_, ?_⟩ <;> simp [hsc, hne]
  | true =>
    have heq := hiff.mp hsc
    refine ⟨?_, ?_⟩ <;> simp [hsc, heq]

theorem successString_eq (result : List (String × JsonValue)) :
    (executeActionThreadResult result = "SUCCESS"
      ↔ findMember result "success" = some (JsonValue.jbool true))
    ∧ (executeActionThreadResult result = "FAILURE"
      ↔ findMember result "success" ≠ some (JsonValue.jbool true)) := by
  have hiff := successCheck_iff result
  rw [executeActionThreadResult]
  cases hsc : successCheck result with
  | false =>
    have hne : findMember result "success" ≠ some (JsonValue.jbool true) := by
      intro hc
      rw [hiff.mpr hc] at hsc
      cases hsc
    refine ⟨?_, ?_⟩ <;>
      simp [hsc, hne, show ("FAILURE" : String) ≠ "SUCCESS" by decide]
  | true =>
    have heq := hiff.mp hsc
    refine ⟨?_, ?_⟩ <;>
      simp [hsc, heq, show ("SUCCESS" : String) ≠ "FAILURE" by decide]

/-- C4: `executeNode` issues a rosbridge service call for a CONDITION node
and sends an action goal for an ACTION node, and at all three result sites
(condition, action, `ExecuteActionThread`) the outcome is SUCCESS iff the
JSON result has a member `success` of boolean type whose value is `true`, and
FAILURE in every other case. -/
theorem claim_C4 (tree : AbsTree) (node_id : Nat) (callResult : NodeStatus)
    (statuses : List NodeStatus) (result : List (String × JsonValue)) :
    (executeNode tree node_id NodeType.CONDITION callResult statuses).call
        = some RosbridgeCall.serviceCall
    ∧ (executeNode tree node_id NodeType.ACTION callResult statuses).call
        = some RosbridgeCall.actionGoal
    ∧ (executeConditionNodeStatus result = NodeStatus.SUCCESS
        ↔ findMember result "success" = some (JsonValue.jbool true))
    ∧ (executeConditionNodeStatus result = NodeStatus.FAILURE
        ↔ findMember result "success" ≠ some (JsonValue.jbool true))
    ∧ (executeActionNodeStatus result = NodeStatus.SUCCESS
        ↔ findMember result "success" = some (JsonValue.jbool true))
    ∧ (executeActionNodeStatus result = NodeStatus.FAILURE
        ↔ findMember result "success" ≠ some (JsonValue.jbool true))
    ∧ (executeActionThreadResult result = "SUCCESS"
        ↔ findMember result "success" = some (JsonValue.jbool true))
    ∧ (executeActionThreadResult result = "FAILURE"
        ↔ findMember result "success" ≠ some (JsonValue.jbool true)) :=
  ⟨rfl, rfl,
   (successStatus_eq result).1, (successStatus_eq result).2,
   (successStatus_eq result).1, (successStatus_eq result).2,
   (successString_eq result).1, (successString_eq result).2⟩

/-- C4 witness: the dispatch and the SUCCESS test evaluated at concrete
inputs. -/
theorem claim_C4_witness :
    (executeNode treeOneSub 1 NodeType.CONDITION NodeStatus.SUCCESS []).call
        = some RosbridgeCall.serviceCall
    ∧ (executeConditionNodeStatus [("success", JsonValue.jbool true)] = NodeStatus.SUCCESS
        ↔ findMember [("success", JsonValue.jbool true)] "success"
            = some (JsonValue.jbool true)) :=
  ⟨(claim_C4 treeOneSub 1 NodeStatus.SUCCESS [] [("success", JsonValue.jbool true)]).1,
   (claim_C4 treeOneSub 1 NodeStatus.SUCCESS [] [("success", JsonValue.jbool true)]).2.2.1⟩

/-- C6: for a node whose model type is neither CONDITION nor ACTION,
`executeNode` makes no rosbridge call, emits no style change, and leaves
every execution-tree node status unchanged. -/
theorem claim_C6 (tree : AbsTree) (node_id : Nat) (ntype : NodeType)
    (callResult : NodeStatus) (statuses : List NodeStatus)
    (h1 : ntype ≠ NodeType.CONDITION) (h2 : ntype ≠ NodeType.ACTION) :
    executeNode tree node_id ntype callResult statuses
      = { call := none, styleChanged := false, statuses := statuses } := by
  rw [executeNode, if_neg]
  rintro (h | h)
  · exact h1 h
  · exact h2 h

/-- C6 witness: a CONTROL node leaves everything untouched. -/
theorem claim_C6_witness :
    executeNode treeOneSub 2 NodeType.CONTROL NodeStatus.SUCCESS
        [NodeStatus.IDLE, NodeStatus.RUNNING]
      = { call := none, styleChanged := false,
          statuses := [NodeStatus.IDLE, NodeStatus.RUNNING] } :=
  claim_C6 treeOneSub 2 NodeType.CONTROL NodeStatus.SUCCESS
    [NodeStatus.IDLE, NodeStatus.RUNNING] (by decide) (by decide)

/-- C8: `InterpreterConditionNode::executeTick` throws `ConditionEvaluation`
iff the stored return status is IDLE (setting the node's status to RUNNING
and leaving the stored status IDLE); otherwise it returns the stored status,
sets the node's status to it, and resets the stored status to IDLE — so a
second `executeTick` without an intervening `set_status` cannot return a
status again. -/
theorem claim_C8 (s : CondNodeState) :
    ((conditionExecuteTick s).1 = none ↔ s.returnStatus = NodeStatus.IDLE)
    ∧ (s.returnStatus = NodeStatus.IDLE →
        (conditionExecuteTick s).2.nodeStatus = NodeStatus.RUNNING
        ∧ (conditionExecuteTick s).2.returnStatus = NodeStatus.IDLE)
    ∧ (s.returnStatus ≠ NodeStatus.IDLE →
        (conditionExecuteTick s).1 = some s.returnStatus
        ∧ (conditionExecuteTick s).2
            = { returnStatus := NodeStatus.IDLE, nodeStatus := s.returnStatus })
    ∧ (∀ r, (conditionExecuteTick s).1 = some r →
        (conditionExecuteTick (conditionExecuteTick s).2).1 = none) := by
  revert s
  decide

/-- C8 witness: a stored SUCCESS is returned once, the store resets to IDLE,
and the next call throws. -/
theorem claim_C8_witness :
    (conditionExecuteTick ⟨NodeStatus.SUCCESS, NodeStatus.IDLE⟩).1 = some NodeStatus.SUCCESS
    ∧ (conditionExecuteTick ⟨NodeStatus.SUCCESS, NodeStatus.IDLE⟩).2
        = { returnStatus := NodeStatus.IDLE, nodeStatus := NodeStatus.SUCCESS } :=
  (claim_C8 ⟨NodeStatus.SUCCESS, NodeStatus.IDLE⟩).2.2.1 (by decide)

/-- C3 witness: membership characterization evaluated for a one-node tree
whose node switched from IDLE to RUNNING. -/
theorem claim_C3_witness :
    (∃ st, (((1 + 0 : Nat) : Int), st) ∈ tickRootChanges NodeStatus.IDLE NodeStatus.RUNNING
        [⟨NodeStatus.IDLE, NodeStatus.RUNNING, NodeType.ACTION⟩] false)
      ↔ tickEntryCond (([⟨NodeStatus.IDLE, NodeStatus.RUNNING, NodeType.ACTION⟩] :
          List TickNode).get ⟨0, by decide⟩) :=
  (claim_C3 NodeStatus.IDLE NodeStatus.RUNNING
    [⟨NodeStatus.IDLE, NodeStatus.RUNNING, NodeType.ACTION⟩] false).2.2.1 0 (by decide)

theorem panelStep_autorun_false {s : PanelState} {e : PanelEvent}
    (hs : s.autorun = false) (he : e ≠ PanelEvent.enableClicked) :
    (panelStep s e).1.autorun = false := by
  cases e with
  | timerTimeout thr upd =>
    obtain ⟨a, u, t⟩ := s
    simp only at hs
    subst hs
    cases u <;> cases t <;> cases thr <;> cases upd <;> rfl
  | enableClicked => exact absurd rfl he
  | disableClicked => rfl
  | runClicked thr upd => exact hs
  | treeLoaded => exact hs
  | statusEdited => exact hs

theorem panelStep_timeout_zero {s : PanelState} (hs : s.autorun = false)
    (thr upd : Bool) : (panelStep s (PanelEvent.timerTimeout thr upd)).2 = 0 := by
  obtain ⟨a, u, t⟩ := s
  simp only at hs
  subst hs
  cases u <;> cases t <;> cases thr <;> cases upd <;> rfl

theorem timerTicksTrace_zero :
    ∀ (es : List PanelEvent) (s : PanelState), s.autorun = false →
      (∀ e ∈ es, e ≠ PanelEvent.enableClicked) → timerTicksTrace s es = 0 := by
  intro es
  induction es with
  | nil => intro s _ _; rfl
  | cons e rest ih =>
    intro s hs hno
    have hstep : (panelStep s e).1.autorun = false :=
      panelStep_autorun_false hs (hno e (List.mem_cons_self e rest))
    have hrest := ih (panelStep s e).1 hstep (fun e' he' => hno e' (List.mem_cons_of_mem e he'))
    cases e with
    | timerTimeout thr upd =>
      rw [timerTicksTrace, hrest, panelStep_timeout_zero hs thr upd]
    | enableClicked => exact absurd rfl (hno _ (List.mem_cons_self _ rest))
    | disableClicked =>
      rw [timerTicksTrace, hrest]
      simp
    | runClicked thr upd =>
      rw [timerTicksTrace, hrest]
      simp
    | treeLoaded =>
      rw [timerTicksTrace, hrest]
      simp
    | statusEdited =>
      rw [timerTicksTrace, hrest]
      simp

/-- C5: the timer runs `runStep` on a 20 ms interval and ticks the root
exactly when the timer is active and both `_autorun` and `_updated` are set;
a successful timed tick clears `_updated`; a timed tick that throws disables
auto-execution and stops the timer; the Disable button does the same; once
`_autorun` is false, no trace of events avoiding the Enable button ever makes
the timer tick the tree; and the Run button ticks the root exactly once. -/
theorem claim_C5 :
    timerIntervalMs = 20
    ∧ (∀ (s : PanelState) (thr upd : Bool),
        (panelStep s (PanelEvent.timerTimeout thr upd)).2 = 1
          ↔ (s.timerActive = true ∧ s.updated = true ∧ s.autorun = true))
    ∧ (∀ (s : PanelState) (upd : Bool), s.timerActive = true → s.updated = true →
        s.autorun = true →
        (panelStep s (PanelEvent.timerTimeout false upd)).1.updated = false)
    ∧ (∀ (s : PanelState) (upd : Bool), s.timerActive = true → s.updated = true →
        s.autorun = true →
        (panelStep s (PanelEvent.timerTimeout true upd)).1.autorun = false
        ∧ (panelStep s (PanelEvent.timerTimeout true upd)).1.timerActive = false)
    ∧ (∀ s : PanelState, (panelStep s PanelEvent.disableClicked).1.autorun = false
        ∧ (panelStep s PanelEvent.disableClicked).1.timerActive = false)
    ∧ (∀ (s : PanelState) (es : List PanelEvent), s.autorun = false →
        (∀ e ∈ es, e ≠ PanelEvent.enableClicked) → timerTicksTrace s es = 0)
    ∧ (∀ (s : PanelState) (thr upd : Bool),
        (panelStep s (PanelEvent.runClicked thr upd)).2 = 1) := by
  refine ⟨rfl, by decide, by decide, by decide, by decide, ?_, by decide⟩
  intro s es hs hno
  exact timerTicksTrace_zero es s hs hno

/-- C5 witness: an idle-flagged autorun state ticks once on timeout and then
clears the pending-update flag; and a no-enable trace from a disabled state
never ticks. -/
theorem claim_C5_witness :
    (panelStep ⟨true, true, true⟩ (PanelEvent.timerTimeout false true)).1.updated = false
    ∧ timerTicksTrace ⟨false, true, false⟩
        [PanelEvent.timerTimeout false true, PanelEvent.statusEdited,
         PanelEvent.timerTimeout false true] = 0 :=
  ⟨claim_C5.2.2.1 ⟨true, true, true⟩ true rfl rfl rfl,
   claim_C5.2.2.2.2.2.1 ⟨false, true, false⟩
     [PanelEvent.timerTimeout false true, PanelEvent.statusEdited,
      PanelEvent.timerTimeout false true] rfl (by decide)⟩

/-- C7: the connection flag becomes true only through `connectionCreated`;
`connectionError` clears it and a Connect click while connected clears it;
and after every handler that changes the flag, the Exec-Selection and
Exec-Running buttons are enabled iff connected while the hostname and port
edits are editable iff not connected. -/
theorem claim_C7 :
    (∀ (s : ConnState) (e : ConnEvent), (connStep s e).connected = true →
        s.connected = true ∨ e = ConnEvent.connectionCreated)
    ∧ (∀ s : ConnState, (connStep s ConnEvent.connectionError).connected = false)
    ∧ (∀ (s : ConnState) (t : Bool), s.connected = true →
        (connStep s (ConnEvent.connectClicked t)).connected = false)
    ∧ (∀ (s : ConnState) (e : ConnEvent), e ≠ ConnEvent.connectClicked true →
        e ≠ ConnEvent.connectClicked false →
        (connStep s e).execSelEnabled = (connStep s e).connected
        ∧ (connStep s e).execRunEnabled = (connStep s e).connected
        ∧ (connStep s e).hostEditable = !(connStep s e).connected
        ∧ (connStep s e).portEditable = !(connStep s e).connected)
    ∧ (∀ (s : ConnState) (t : Bool), s.connected = true →
        (connStep s (ConnEvent.connectClicked t)).execSelEnabled
            = (connStep s (ConnEvent.connectClicked t)).connected
        ∧ (connStep s (ConnEvent.connectClicked t)).execRunEnabled
            = (connStep s (ConnEvent.connectClicked t)).connected
        ∧ (connStep s (ConnEvent.connectClicked t)).hostEditable
            = !(connStep s (ConnEvent.connectClicked t)).connected
        ∧ (connStep s (ConnEvent.connectClicked t)).portEditable
            = !(connStep s (ConnEvent.connectClicked t)).connected) := by
  decide

/-- C7 witness: a Connect click while connected clears the flag and re-syncs
the widgets. -/
theorem claim_C7_witness :
    (connStep ⟨true, true, true, false, false⟩ (ConnEvent.connectClicked false)).connected
        = false
    ∧ (connStep ⟨true, true, true, false, false⟩
          (ConnEvent.connectClicked false)).hostEditable
        = !(connStep ⟨true, true, true, false, false⟩
          (ConnEvent.connectClicked false)).connected :=
  ⟨claim_C7.2.2.1 ⟨true, true, true, false, false⟩ false rfl,
   (claim_C7.2.2.2.2 ⟨true, true, true, false, false⟩ false rfl).2.2.1⟩

theorem c9_prim_case (ty name reg nodeName : String) (kg : JsonKind) (cs : CppScalar)
    (hg : getInputValue ty name reg nodeName = Except.ok kg)
    (hs : setOutputValue ty name reg nodeName = Except.ok (kg, cs))
    (hmem : ty ∈ rosPrimitiveTypes) :
    C9Prop ty name reg nodeName := by
  refine ⟨?_, ?_, ?_, ?_, ?_, ?_⟩
  · constructor
    · rintro ⟨e, he⟩
      rw [hg] at he
      cases he
    · rintro ⟨_, hnm⟩
      exact absurd hmem hnm
  · constructor
    · rintro ⟨e, he⟩
      rw [hs] at he
      cases he
    · rintro ⟨_, hnm⟩
      exact absurd hmem hnm
  · intro e he
    rw [hg] at he
    cases he
  · intro e he
    rw [hs] at he
    cases he
  · intro k hk
    rw [hg] at hk
    injection hk with h
    exact ⟨cs, by rw [hs, h]⟩
  · intro hmsg
    rw [getInputValue, if_pos hmsg]

theorem c9_msg_case (ty name reg nodeName : String) (hc : typeIsRosMsg ty = true) :
    C9Prop ty name reg nodeName := by
  have hg : getInputValue ty name reg nodeName = Except.ok JsonKind.kObject := by
    rw [getInputValue, if_pos hc]
  have hs : setOutputValue ty name reg nodeName
      = Except.ok (JsonKind.kObject, CppScalar.cDocument) := by
    rw [setOutputValue, if_pos hc]
  refine ⟨?_, ?_, ?_, ?_, ?_, fun _ => hg⟩
  · constructor
    · rintro ⟨e, he⟩
      rw [hg] at he
      cases he
    · rintro ⟨hf, _⟩
      rw [hc] at hf
      cases hf
  · constructor
    · rintro ⟨e, he⟩
      rw [hs] at he
      cases he
    · rintro ⟨hf, _⟩
      rw [hc] at hf
      cases hf
  · intro e he
    rw [hg] at he
    cases he
  · intro e he
    rw [hs] at he
    cases he
  · intro k hk
    rw [hg] at hk
    injection hk with h
    exact ⟨CppScalar.cDocument, by rw [hs, ← h]⟩

theorem c9_bad_case (ty name reg nodeName : String) (hc : ¬typeIsRosMsg ty = true)
    (hm : ty ∉ rosPrimitiveTypes) :
    C9Prop ty name reg nodeName := by
  have hcf : typeIsRosMsg ty = false := by
    revert hc
    cases typeIsRosMsg ty <;> simp
  have hne := hm
  simp only [rosPrimitiveTypes, List.mem_cons, List.not_mem_nil, or_false] at hne
  push_neg at hne
  obtain ⟨n1, n2, n3, n4, n5, n6, n7, n8, n9, n10, n11, n12⟩ := hne
  have hg : getInputValue ty name reg nodeName
      = Except.error (invalidPortTypeMsg ty name reg nodeName) := by
    rw [getInputValue, if_neg hc, if_neg n1,
      if_neg (by push_neg; exact ⟨n2, n3, n4⟩),
      if_neg (by push_neg; exact ⟨n6, n7, n8⟩),
      if_neg n5, if_neg n9,
      if_neg (by push_neg; exact ⟨n10, n11⟩),
      if_neg n12]
  have hs : setOutputValue ty name reg nodeName
      = Except.error (invalidPortTypeMsg ty name reg nodeName) := by
    rw [setOutputValue, if_neg hc, if_neg n1, if_neg n2, if_neg n3, if_neg n4,
      if_neg n5, if_neg n6, if_neg n7, if_neg n8, if_neg n9, if_neg n10,
      if_neg n11, if_neg n12]
  refine ⟨?_, ?_, ?_, ?_, ?_, ?_⟩
  · exact ⟨fun _ => ⟨hcf, hm⟩, fun _ => ⟨_, hg⟩⟩
  · exact ⟨fun _ => ⟨hcf, hm⟩, fun _ => ⟨_, hs⟩⟩
  · intro e he
    rw [hg] at he
    injection he with h
    refine ⟨"Invalid port type: " ++ ty ++ " for ",
      " at " ++ reg ++ "(" ++ nodeName ++ ")", ?_⟩
    rw [← h, invalidPortTypeMsg]
    simp [String.append_assoc]
  · intro e he
    rw [hs] at he
    injection he with h
    refine ⟨"Invalid port type: " ++ ty ++ " for ",
      " at " ++ reg ++ "(" ++ nodeName ++ ")", ?_⟩
    rw [← h, invalidPortTypeMsg]
    simp [String.append_assoc]
  · intro k hk
    rw [hg] at hk
    cases hk
  · intro hmsg
    exact absurd hmsg hc

/-- C9: `getInputValue` and `setOutputValue` throw the port-naming
`std::runtime_error` exactly when the port's type string contains no `/` and
is none of the twelve ROS primitive types; every recognised type (and every
message type, treated as a JSON document) avoids the error branch, and the
JSON kind `getInputValue` produces matches the kind `setOutputValue`
consumes. -/
theorem claim_C9 (ty name reg nodeName : String) :
    ((∃ e, getInputValue ty name reg nodeName = Except.error e)
      ↔ (typeIsRosMsg ty = false ∧ ty ∉ rosPrimitiveTypes))
    ∧ ((∃ e, setOutputValue ty name reg nodeName = Except.error e)
      ↔ (typeIsRosMsg ty = false ∧ ty ∉ rosPrimitiveTypes))
    ∧ (∀ e, getInputValue ty name reg nodeName = Except.error e →
        ∃ pre post, e = pre ++ name ++ post)
    ∧ (∀ e, setOutputValue ty name reg nodeName = Except.error e →
        ∃ pre post, e = pre ++ name ++ post)
    ∧ (∀ k, getInputValue ty name reg nodeName = Except.ok k →
        ∃ c, setOutputValue ty name reg nodeName = Except.ok (k, c))
    ∧ (typeIsRosMsg ty = true →
        getInputValue ty name reg nodeName = Except.ok JsonKind.kObject) := by
  by_cases hc : typeIsRosMsg ty = true
  · exact c9_msg_case ty name reg nodeName hc
  · by_cases hm : ty ∈ rosPrimitiveTypes
    · have hcases := hm
      simp only [rosPrimitiveTypes, List.mem_cons, List.not_mem_nil, or_false] at hcases
      rcases hcases with rfl | rfl | rfl | rfl | rfl | rfl | rfl | rfl | rfl | rfl | rfl | rfl
      · exact c9_prim_case _ name reg nodeName JsonKind.kBool CppScalar.cUint8 rfl rfl (by decide)
      · exact c9_prim_case _ name reg nodeName JsonKind.kInt CppScalar.cInt8 rfl rfl (by decide)
      · exact c9_prim_case _ name reg nodeName JsonKind.kInt CppScalar.cInt16 rfl rfl (by decide)
      · exact c9_prim_case _ name reg nodeName JsonKind.kInt CppScalar.cInt32 rfl rfl (by decide)
      · exact c9_prim_case _ name reg nodeName JsonKind.kInt64 CppScalar.cInt64 rfl rfl (by decide)
      · exact c9_prim_case _ name reg nodeName JsonKind.kUint CppScalar.cUint8 rfl rfl (by decide)
      · exact c9_prim_case _ name reg nodeName JsonKind.kUint CppScalar.cUint16 rfl rfl (by decide)
      · exact c9_prim_case _ name reg nodeName JsonKind.kUint CppScalar.cUint32 rfl rfl (by decide)
      · exact c9_prim_case _ name reg nodeName JsonKind.kUint64 CppScalar.cUint64 rfl rfl (by decide)
      · exact c9_prim_case _ name reg nodeName JsonKind.kDouble CppScalar.cFloat rfl rfl (by decide)
      · exact c9_prim_case _ name reg nodeName JsonKind.kDouble CppScalar.cDouble rfl rfl (by decide)
      · exact c9_prim_case _ name reg nodeName JsonKind.kString CppScalar.cString rfl rfl (by decide)
    · exact c9_bad_case ty name reg nodeName hc hm

/-- C9 witness: a message type marshals as a document, `float32` kinds agree,
and an unknown type errors with a message naming the port. -/
theorem claim_C9_witness :
    getInputValue "std_msgs/String" "data" "Reg" "node" = Except.ok JsonKind.kObject
    ∧ (∃ c, setOutputValue "float32" "angle" "Reg" "node"
        = Except.ok (JsonKind.kDouble, c))
    ∧ (∃ e, getInputValue "quaternion" "pose" "Reg" "node" = Except.error e) :=
  ⟨(claim_C9 "std_msgs/String" "data" "Reg" "node").2.2.2.2.2 (by decide),
   (claim_C9 "float32" "angle" "Reg" "node").2.2.2.2.1 JsonKind.kDouble rfl,
   ((claim_C9 "quaternion" "pose" "Reg" "node").1).mpr ⟨by decide, by decide⟩⟩

theorem sidepanel_cons_out {p : PortEntry} {rest : List PortEntry}
    (hout : p.direction = PortDirection.OUTPUT) :
    sidepanelGetRequestFromPorts (p :: rest) = sidepanelGetRequestFromPorts rest := by
  rw [sidepanelGetRequestFromPorts, if_pos hout]

theorem sidepanel_cons_ref {p : PortEntry} {rest : List PortEntry}
    (hout : p.direction ≠ PortDirection.OUTPUT) (href : isRefPort p = true) :
    sidepanelGetRequestFromPorts (p :: rest)
      = [(p.name, GoalValue.fromBlackboard
          (String.mk (getPortValue p.defaultValue p.mappingValue).1))] := by
  simp only [isRefPort] at href
  rw [sidepanelGetRequestFromPorts, if_neg hout, if_pos href]

theorem sidepanel_cons_noref {p : PortEntry} {rest : List PortEntry}
    (hout : p.direction ≠ PortDirection.OUTPUT) (href : isRefPort p = false) :
    sidepanelGetRequestFromPorts (p :: rest)
      = literalMember p :: sidepanelGetRequestFromPorts rest := by
  simp only [isRefPort] at href
  rw [sidepanelGetRequestFromPorts, if_neg hout, if_neg (by simp [href])]
  rfl

theorem sidepanel_no_ref : ∀ (ports : List PortEntry),
    (∀ p ∈ ports, nonOutputPort p = true → isRefPort p = false) →
    sidepanelGetRequestFromPorts ports = (ports.filter nonOutputPort).map literalMember := by
  intro ports
  induction ports with
  | nil => intro _; rfl
  | cons p rest ih =>
    intro h
    by_cases hout : p.direction = PortDirection.OUTPUT
    · have hf : nonOutputPort p = false := by simp [nonOutputPort, hout]
      rw [sidepanel_cons_out hout, List.filter_cons, hf]
      simp only [Bool.false_eq_true, if_false]
      exact ih (fun q hq hq2 => h q (List.mem_cons_of_mem p hq) hq2)
    · have ht : nonOutputPort p = true := by simp [nonOutputPort, hout]
      have href := h p (List.mem_cons_self p rest) ht
      rw [sidepanel_cons_noref hout href, List.filter_cons, ht]
      simp only [if_true]
      rw [List.map_cons, ih (fun q hq hq2 => h q (List.mem_cons_of_mem p hq) hq2)]

theorem sidepanel_first_ref : ∀ (pre : List PortEntry) (p : PortEntry) (post : List PortEntry),
    (∀ q ∈ pre, nonOutputPort q = true → isRefPort q = false) →
    nonOutputPort p = true → isRefPort p = true →
    sidepanelGetRequestFromPorts (pre ++ p :: post)
      = (pre.filter nonOutputPort).map literalMember
        ++ [(p.name, GoalValue.fromBlackboard
            (String.mk (getPortValue p.defaultValue p.mappingValue).1))] := by
  intro pre
  induction pre with
  | nil =>
    intro p post _ hno href
    have hout : p.direction ≠ PortDirection.OUTPUT := by
      simpa [nonOutputPort] using hno
    rw [List.nil_append, sidepanel_cons_ref hout href]
    rfl
  | cons q pre' ih =>
    intro p post h hno href
    by_cases hout : q.direction = PortDirection.OUTPUT
    · have hf : nonOutputPort q = false := by simp [nonOutputPort, hout]
      rw [List.cons_append, sidepanel_cons_out hout,
        ih p post (fun r hr hr2 => h r (List.mem_cons_of_mem q hr) hr2) hno href,
        List.filter_cons, hf]
      simp
    · have ht : nonOutputPort q = true := by simp [nonOutputPort, hout]
      have hrefq := h q (List.mem_cons_self q pre') ht
      rw [List.cons_append, sidepanel_cons_noref hout hrefq,
        ih p post (fun r hr hr2 => h r (List.mem_cons_of_mem q hr) hr2) hno href,
        List.filter_cons, ht]
      simp

theorem interpreter_all_ports : ∀ (ports : List PortEntry) (reg nodeName : String),
    (∀ p ∈ ports, nonOutputPort p = true →
      ∃ k, getInputValue p.typeName p.name reg nodeName = Except.ok k) →
    ∃ ms, interpreterGetRequestFromPorts reg nodeName ports = Except.ok ms
      ∧ ms.map Prod.fst = (ports.filter nonOutputPort).map PortEntry.name := by
  intro ports reg nodeName
  induction ports with
  | nil => intro _; exact ⟨[], rfl, rfl⟩
  | cons p rest ih =>
    intro h
    obtain ⟨ms, hms, hnames⟩ := ih (fun q hq hq2 => h q (List.mem_cons_of_mem p hq) hq2)
    by_cases hout : p.direction = PortDirection.OUTPUT
    · have hf : nonOutputPort p = false := by simp [nonOutputPort, hout]
      refine ⟨ms, ?_, ?_⟩
      · rw [interpreterGetRequestFromPorts, if_pos hout]
        exact hms
      · rw [List.filter_cons, hf]
        simpa using hnames
    · have ht : nonOutputPort p = true := by simp [nonOutputPort, hout]
      obtain ⟨k, hk⟩ := h p (List.mem_cons_self p rest) ht
      refine ⟨(p.name, k) :: ms, ?_, ?_⟩
      · rw [interpreterGetRequestFromPorts, if_neg hout]
        simp only [hk, hms]
      · rw [List.filter_cons, ht]
        simp only [if_true, List.map_cons, hnames]

/-- C10: `SidepanelInterpreter::getRequestFromPorts` yields one member per
non-OUTPUT port only when no non-OUTPUT port's value is a blackboard
reference; at the first reference port the loop returns the goal immediately,
keeping the members built so far plus that reference member and dropping
every later port — while `Interpreter::getRequestFromPorts` adds a member for
every non-OUTPUT port of the mapping. -/
theorem claim_C10 (reg nodeName : String) (ports : List PortEntry) :
    ((∀ p ∈ ports, nonOutputPort p = true → isRefPort p = false) →
      sidepanelGetRequestFromPorts ports = (ports.filter nonOutputPort).map literalMember)
    ∧ (∀ (pre : List PortEntry) (p : PortEntry) (post : List PortEntry),
        ports = pre ++ p :: post →
        (∀ q ∈ pre, nonOutputPort q = true → isRefPort q = false) →
        nonOutputPort p = true → isRefPort p = true →
        sidepanelGetRequestFromPorts ports
          = (pre.filter nonOutputPort).map literalMember
            ++ [(p.name, GoalValue.fromBlackboard
                (String.mk (getPortValue p.defaultValue p.mappingValue).1))])
    ∧ ((∀ p ∈ ports, nonOutputPort p = true →
          ∃ k, getInputValue p.typeName p.name reg nodeName = Except.ok k) →
        ∃ ms, interpreterGetRequestFromPorts reg nodeName ports = Except.ok ms
          ∧ ms.map Prod.fst = (ports.filter nonOutputPort).map PortEntry.name) := by
  refine ⟨sidepanel_no_ref ports, ?_, interpreter_all_ports ports reg nodeName⟩
  intro pre p post heq h1 h2 h3
  rw [heq]
  exact sidepanel_first_ref pre p post h1 h2 h3

/-- C10 witness: with an OUTPUT port, a literal port, a `$`-reference port
and a trailing port, the sidepanel version stops at the reference and drops
the trailing port. -/
theorem claim_C10_witness :
    sidepanelGetRequestFromPorts [portOut, portLit, portRef, portAfter]
      = ([portOut, portLit].filter nonOutputPort).map literalMember
        ++ [(portRef.name, GoalValue.fromBlackboard
            (String.mk (getPortValue portRef.defaultValue portRef.mappingValue).1))] :=
  (claim_C10 "Reg" "node" [portOut, portLit, portRef, portAfter]).2.1
    [portOut, portLit] portRef [portAfter] rfl (by decide) (by decide) (by decide)

